import Mathlib

/-!
Verification of the cron scheduling library (Go sources: cron.go, chain.go,
parser/constantdelay sources, option.go) via a shallow embedding in Lean 4.

Conventions of the embedding:
* Go `time.Time` values are modelled by the wall-clock record `DT`
  (year, month, day, hour, minute, second, nanosecond), interpreted in a
  fixed-offset (DST-free) location, so `Add`, `AddDate`, `Truncate` act on
  the wall-clock fields with ordinary calendar carries.  Timezone
  conversion (`In`) is the identity in this model.
* Go `uint64` bitsets are `Nat` with explicit `% 2^64` truncation where a
  shift can overflow; `uint`/`int` values that stay small are plain `Nat`.
* Go `time.Duration` (int64 nanoseconds) is `Int`.
* Loops are embedded as fuel-indexed structural recursions; a separate
  lemma shows the chosen fuel never runs out on valid inputs, so the
  fuelled function agrees with the Go loop.
-/

set_option maxRecDepth 10000

namespace Cron

/-! ## Bitset basics (cron.go: starBit and field-bit tests) -/

/-- The sentinel `starBit = 1 << 63` (cron.go): set when the field expression
contained `*`/`?`. -/
def starBit : Nat := 1 <<< 63

/-- Go `math.MaxUint64`. -/
def MaxUint64 : Nat := 2 ^ 64 - 1

/-! ## The Go time model: wall-clock date-times in a fixed-offset location -/

/-- Wall-clock model of Go `time.Time` (fixed-offset location, so no DST). -/
structure DT where
  year   : Nat
  month  : Nat
  day    : Nat
  hour   : Nat
  minute : Nat
  second : Nat
  nsec   : Nat
  deriving DecidableEq, Repr

/-- Gregorian leap-year test (Go `isLeap`). -/
def isLeap (y : Nat) : Bool := y % 4 == 0 && (y % 100 != 0 || y % 400 == 0)

/-- Number of days in a month (Go month lengths). -/
def daysInMonth (y m : Nat) : Nat :=
  if m = 2 then (if isLeap y then 29 else 28)
  else if m = 4 ∨ m = 6 ∨ m = 9 ∨ m = 11 then 30
  else 31

/-- Days in the months strictly before month `m` of year `y`. -/
def daysBeforeMonth (y m : Nat) : Nat :=
  match m with
  | 0 => 0
  | mm + 1 => if mm = 0 then 0 else daysInMonth y mm + daysBeforeMonth y mm

/-- Leap years among 1..y-1 (for day numbering). -/
def leapsBefore (y : Nat) : Nat := (y - 1) / 4 - (y - 1) / 100 + (y - 1) / 400

/-- Zero-based day number of a date, counting from January 1 of year 1. -/
def dayNumber (y m d : Nat) : Nat :=
  (y - 1) * 365 + leapsBefore y + daysBeforeMonth y m + (d - 1)

/-- Go `Time.Weekday`: 0 = Sunday.  January 1 of year 1 is a Monday. -/
def weekday (t : DT) : Nat := (dayNumber t.year t.month t.day + 1) % 7

/-- A `DT` whose fields are within calendar range (years from 1 on). -/
def Valid (t : DT) : Prop :=
  1 ≤ t.year ∧ 1 ≤ t.month ∧ t.month ≤ 12 ∧
  1 ≤ t.day ∧ t.day ≤ daysInMonth t.year t.month ∧
  t.hour ≤ 23 ∧ t.minute ≤ 59 ∧ t.second ≤ 59 ∧ t.nsec ≤ 999999999

instance (t : DT) : Decidable (Valid t) := by unfold Valid; infer_instance

/-- Linear key (in seconds) making the lexicographic wall-clock order
arithmetic: strictly monotone on valid date-times. -/
def secKey (t : DT) : Nat :=
  ((((t.year * 13 + t.month) * 32 + t.day) * 24 + t.hour) * 60 + t.minute) * 60 + t.second

/-- Linear key including nanoseconds. -/
def nsKey (t : DT) : Nat := secKey t * 1000000000 + t.nsec

/-! ### Calendar arithmetic used by `SpecSchedule.Next` -/

/-- Go `time.Date(y, m, d, hh, mm, ss, 0, loc)` restricted to the shapes the
algorithm constructs, plus normalization of a day overflowing its month
(as `AddDate` produces).  `d` exceeds the month length by at most one in
every use below, so a single carry step suffices. -/
def mkDate (y m d hh mm ss : Nat) : DT :=
  let y1 := if m ≥ 13 then y + 1 else y
  let m1 := if m ≥ 13 then m - 12 else m
  if d > daysInMonth y1 m1 then
    ⟨if m1 = 12 then y1 + 1 else y1, if m1 = 12 then 1 else m1 + 1,
      d - daysInMonth y1 m1, hh, mm, ss, 0⟩
  else ⟨y1, m1, d, hh, mm, ss, 0⟩

/-- Go `t.AddDate(0, 1, 0)`. -/
def addMonth (t : DT) : DT := mkDate t.year (t.month + 1) t.day t.hour t.minute t.second

/-- Go `t.AddDate(0, 0, 1)`. -/
def addDay (t : DT) : DT := mkDate t.year t.month (t.day + 1) t.hour t.minute t.second

/-- Go `t.Add(1 * time.Hour)`. -/
def addHour (t : DT) : DT :=
  if t.hour < 23 then ⟨t.year, t.month, t.day, t.hour + 1, t.minute, t.second, t.nsec⟩
  else
    let u := mkDate t.year t.month (t.day + 1) 0 t.minute t.second
    { u with nsec := t.nsec }

/-- Go `t.Add(1 * time.Minute)`. -/
def addMinute (t : DT) : DT :=
  if t.minute < 59 then ⟨t.year, t.month, t.day, t.hour, t.minute + 1, t.second, t.nsec⟩
  else { addHour ⟨t.year, t.month, t.day, t.hour, 0, t.second, t.nsec⟩ with minute := 0 }

/-- Go `t.Add(1 * time.Second)`. -/
def addSecond (t : DT) : DT :=
  if t.second < 59 then ⟨t.year, t.month, t.day, t.hour, t.minute, t.second + 1, t.nsec⟩
  else { addMinute ⟨t.year, t.month, t.day, t.hour, t.minute, 0, t.nsec⟩ with second := 0 }

/-- Go `t.Add(-1 * time.Hour)` (only reachable through the DST guard). -/
def subHour (t : DT) : DT :=
  if t.hour > 0 then { t with hour := t.hour - 1 }
  else if t.day > 1 then ⟨t.year, t.month, t.day - 1, 23, t.minute, t.second, t.nsec⟩
  else if t.month > 1 then
    ⟨t.year, t.month - 1, daysInMonth t.year (t.month - 1), 23, t.minute, t.second, t.nsec⟩
  else ⟨t.year - 1, 12, 31, 23, t.minute, t.second, t.nsec⟩

/-- Iterated hour addition, for the DST guard's `Add(Duration(24-hour) * Hour)`. -/
def addHours (t : DT) : Nat → DT
  | 0 => t
  | n + 1 => addHours (addHour t) n

/-- Iterated hour subtraction, for the DST guard's `Add(Duration(-hour) * Hour)`. -/
def subHours (t : DT) : Nat → DT
  | 0 => t
  | n + 1 => subHours (subHour t) n

/-- Go `t.Truncate(time.Minute)` on wall clock (whole-minute offsets). -/
def truncMinute (t : DT) : DT := { t with second := 0, nsec := 0 }

/-- Go `t.Truncate(time.Second)`. -/
def truncSecond (t : DT) : DT := { t with nsec := 0 }

/-- Go `t.Add(1*time.Second - Duration(t.Nanosecond()))`: start of the next
whole second (cron.go line 430). -/
def roundUpSecond (t : DT) : DT := addSecond (truncSecond t)

/-! ## SpecSchedule and its matching predicates (cron.go) -/

/-- The field-based schedule `SpecSchedule` (cron.go): six uint64 bitsets.
The `Location` field is not modelled (fixed-offset embedding). -/
structure SpecSchedule where
  Second : Nat
  Minute : Nat
  Hour   : Nat
  Dom    : Nat
  Month  : Nat
  Dow    : Nat
  deriving DecidableEq, Repr

/-- The Go bit test `1 << uint(v) & field > 0`. -/
def bitTest (field v : Nat) : Bool := (1 <<< v) &&& field != 0

/-- The function `dayMatches` (cron.go lines 523-532). -/
def dayMatches (s : SpecSchedule) (t : DT) : Bool :=
  let domMatch := bitTest s.Dom t.day
  let dowMatch := bitTest s.Dow (weekday t)
  if s.Dom &&& starBit != 0 || s.Dow &&& starBit != 0 then domMatch && dowMatch
  else domMatch || dowMatch

def monthOK (s : SpecSchedule) (t : DT) : Bool := bitTest s.Month t.month
def hourOK (s : SpecSchedule) (t : DT) : Bool := bitTest s.Hour t.hour
def minuteOK (s : SpecSchedule) (t : DT) : Bool := bitTest s.Minute t.minute
def secondOK (s : SpecSchedule) (t : DT) : Bool := bitTest s.Second t.second

/-- A date-time satisfies the schedule: month, combined day, hour, minute and
second constraints all hold (nanoseconds are not constrained). -/
def Matches (s : SpecSchedule) (t : DT) : Bool :=
  monthOK s t && dayMatches s t && hourOK s t && minuteOK s t && secondOK s t

/-! ### The five field loops of `SpecSchedule.Next` (cron.go lines 438-517) -/

/-- Result of one field loop: field satisfied (`exit`), wrapped around
(`goto WRAP`), or fuel exhausted (never happens on valid input). -/
inductive FieldStep where
  | exit (added : Bool) (t : DT)
  | wrap (added : Bool) (t : DT)
  | fuelOut
  deriving DecidableEq, Repr

/-- Month loop (cron.go lines 445-458). -/
def monthLoop (s : SpecSchedule) : Nat → Bool → DT → FieldStep
  | 0, _, _ => .fuelOut
  | f + 1, added, t =>
    if monthOK s t then .exit added t
    else
      let t1 := if !added then DT.mk t.year t.month 1 0 0 0 0 else t
      let t2 := addMonth t1
      if t2.month = 1 then .wrap true t2 else monthLoop s f true t2

/-- Day loop including the DST guard (cron.go lines 462-481). -/
def dayLoop (s : SpecSchedule) : Nat → Bool → DT → FieldStep
  | 0, _, _ => .fuelOut
  | f + 1, added, t =>
    if dayMatches s t then .exit added t
    else
      let t1 := if !added then DT.mk t.year t.month t.day 0 0 0 0 else t
      let t2 := addDay t1
      let t3 := if t2.hour ≠ 0 then
                  (if t2.hour > 12 then addHours t2 (24 - t2.hour) else subHours t2 t2.hour)
                else t2
      if t3.day = 1 then .wrap true t3 else dayLoop s f true t3

/-- Hour loop (cron.go lines 483-493). -/
def hourLoop (s : SpecSchedule) : Nat → Bool → DT → FieldStep
  | 0, _, _ => .fuelOut
  | f + 1, added, t =>
    if hourOK s t then .exit added t
    else
      let t1 := if !added then DT.mk t.year t.month t.day t.hour 0 0 0 else t
      let t2 := addHour t1
      if t2.hour = 0 then .wrap true t2 else hourLoop s f true t2

/-- Minute loop (cron.go lines 495-505). -/
def minuteLoop (s : SpecSchedule) : Nat → Bool → DT → FieldStep
  | 0, _, _ => .fuelOut
  | f + 1, added, t =>
    if minuteOK s t then .exit added t
    else
      let t1 := if !added then truncMinute t else t
      let t2 := addMinute t1
      if t2.minute = 0 then .wrap true t2 else minuteLoop s f true t2

/-- Second loop (cron.go lines 507-517). -/
def secondLoop (s : SpecSchedule) : Nat → Bool → DT → FieldStep
  | 0, _, _ => .fuelOut
  | f + 1, added, t =>
    if secondOK s t then .exit added t
    else
      let t1 := if !added then truncSecond t else t
      let t2 := addSecond t1
      if t2.second = 0 then .wrap true t2 else secondLoop s f true t2

/-- Result of the whole search. -/
inductive NextRes where
  | found (t : DT)
  | noTime
  | fuelOut
  deriving DecidableEq, Repr

/-- The WRAP recursion of `SpecSchedule.Next` (cron.go lines 438-517): one
pass runs the five field loops in order; any wrap restarts the pass. -/
def nextRec (s : SpecSchedule) (yearLimit : Nat) : Nat → Bool → DT → NextRes
  | 0, _, _ => .fuelOut
  | f + 1, added, t =>
    if t.year > yearLimit then .noTime
    else
      match monthLoop s 13 added t with
      | .fuelOut => .fuelOut
      | .wrap a1 t1 => nextRec s yearLimit f a1 t1
      | .exit a1 t1 =>
        match dayLoop s 40 a1 t1 with
        | .fuelOut => .fuelOut
        | .wrap a2 t2 => nextRec s yearLimit f a2 t2
        | .exit a2 t2 =>
          match hourLoop s 25 a2 t2 with
          | .fuelOut => .fuelOut
          | .wrap a3 t3 => nextRec s yearLimit f a3 t3
          | .exit a3 t3 =>
            match minuteLoop s 61 a3 t3 with
            | .fuelOut => .fuelOut
            | .wrap a4 t4 => nextRec s yearLimit f a4 t4
            | .exit a4 t4 =>
              match secondLoop s 61 a4 t4 with
              | .fuelOut => .fuelOut
              | .wrap a5 t5 => nextRec s yearLimit f a5 t5
              | .exit _ t5 => .found t5

/-- Outer fuel: one unit per `WRAP`; each wrap strictly increases `secKey`,
which stays below `secKey ⟨yearLimit+2,1,1,0,0,0,0⟩`, so this fuel suffices. -/
def nextFuel (yearLimit : Nat) (t : DT) : Nat :=
  secKey ⟨yearLimit + 2, 1, 1, 0, 0, 0, 0⟩ - secKey t + 1

/-- The method `SpecSchedule.Next` (cron.go lines 409-520): `none` models the
zero `time.Time` returned when the five-year search fails. -/
def SpecSchedule.next (s : SpecSchedule) (t : DT) : Option DT :=
  let t1 := roundUpSecond t
  let yearLimit := t1.year + 5
  match nextRec s yearLimit (nextFuel yearLimit t1) false t1 with
  | .found u => some u
  | _ => none

/-! ## ConstantDelaySchedule (constantdelay source file) -/

/-- Go `time.Second` as int64 nanoseconds. -/
def goSecond : Int := 1000000000

/-- The interval schedule `ConstantDelaySchedule`: `Delay` is a
`time.Duration` (int64 nanoseconds). -/
structure ConstantDelaySchedule where
  Delay : Int
  deriving DecidableEq, Repr

/-- The constructor `Every` (constantdelay lines 14-21): clamps to one second,
truncates sub-second components. -/
def Every (duration : Int) : ConstantDelaySchedule :=
  let d := if duration < goSecond then goSecond else duration
  ⟨d - d % goSecond⟩

/-- Instants for the interval schedule: int64 nanoseconds since epoch.
Go `t.Nanosecond()` is the nonnegative sub-second remainder `t % 10^9`. -/
def ConstantDelaySchedule.next (sc : ConstantDelaySchedule) (t : Int) : Int :=
  t + (sc.Delay - t % goSecond)

/-- Iterated activations of an interval schedule starting from `t`. -/
def cdsIter (sc : ConstantDelaySchedule) (t : Int) : Nat → Int
  | 0 => t
  | n + 1 => sc.next (cdsIter sc t n)

/-! ## Chain (chain.go) -/

/-- A chain of job wrappers over an abstract job type `J` (chain.go). -/
structure Chain (J : Type _) where
  wrappers : List (J → J)

/-- The constructor `NewChain` (chain.go lines 20-22). -/
def NewChain {J : Type _} (c : List (J → J)) : Chain J := ⟨c⟩

/-- The loop body of `Chain.Then`: with `r` iterations left the Go index is
`i = len - r`, so the wrapper applied is `wrappers[len-i-1] = wrappers[r-1]`. -/
def thenGo {J : Type _} (ws : List (J → J)) : Nat → J → J
  | 0, j => j
  | r + 1, j => thenGo ws r ((ws.getD r id) j)

/-- The method `Chain.Then` (chain.go lines 30-35): applies the wrappers from
the last to the first. -/
def Chain.Then {J : Type _} (c : Chain J) (j : J) : J :=
  thenGo c.wrappers c.wrappers.length j

/-! ## getBits and the parser (parser source file) -/

/-- The loop branch of `getBits` (parser lines 375-379), embedded with fuel;
`mx + 1 - mn` iterations suffice for any positive step. -/
def bitsLoopGo (mx step : Nat) : Nat → Nat → Nat
  | 0, _ => 0
  | f + 1, i => if i ≤ mx then ((1 <<< i) % 2 ^ 64) ||| bitsLoopGo mx step f (i + step) else 0

/-- The function `getBits` (parser lines 366-380): shift fast path for step 1,
loop otherwise. -/
def getBits (mn mx step : Nat) : Nat :=
  if step = 1 then
    (MaxUint64 ^^^ ((MaxUint64 <<< (mx + 1)) % 2 ^ 64)) &&& ((MaxUint64 <<< mn) % 2 ^ 64)
  else
    bitsLoopGo mx step (mx + 1 - mn) mn

/-- Go strings are modelled as lists of characters. -/
abbrev GStr := List Char

/-- Split on every occurrence of `sep` (Go `strings.Split` with a one-char
separator); always returns at least one part. -/
def splitCh (sep : Char) : GStr → List GStr
  | [] => [[]]
  | c :: rest =>
    if c = sep then [] :: splitCh sep rest
    else match splitCh sep rest with
         | [] => [[c]]
         | p :: ps => (c :: p) :: ps

/-- Go `strings.FieldsFunc`: split and drop empty parts. -/
def fieldsBy (sep : Char) (s : GStr) : List GStr :=
  (splitCh sep s).filter (fun p => p ≠ [])

/-- Whitespace test for Go `strings.Fields` / `strings.TrimSpace`. -/
def isWS (c : Char) : Bool := c = ' ' ∨ c = '\t' ∨ c = '\n' ∨ c = '\r'

/-- Go `strings.Fields`: split on whitespace, dropping empty fields. -/
def goFields (s : GStr) : List GStr :=
  ((s.splitOnP isWS).map id).filter (fun p => p ≠ [])

/-- Go `strings.TrimSpace`. -/
def goTrimSpace (s : GStr) : GStr :=
  ((s.dropWhile isWS).reverse.dropWhile isWS).reverse

/-- Go `strings.Index(s, sub)` for a one-character `sub`: -1 when absent. -/
def goIndexCh (s : GStr) (c : Char) : Int :=
  match s with
  | [] => -1
  | d :: rest =>
    if d = c then 0
    else match goIndexCh rest c with
         | -1 => -1
         | k => k + 1

/-- Go slice expression `s[lo:hi]`: `none` models the runtime panic
`slice bounds out of range` when `0 ≤ lo ≤ hi ≤ len(s)` fails. -/
def goSlice (s : GStr) (lo hi : Int) : Option GStr :=
  if 0 ≤ lo ∧ lo ≤ hi ∧ hi ≤ (s.length : Int) then
    some ((s.drop lo.toNat).take (hi - lo).toNat)
  else none

/-- Descriptive parse errors (the payloads carry the offending
sub-expression, mirroring the `fmt.Errorf` messages). -/
inductive PErr where
  | emptySpec
  | badLocation (name : GStr)
  | descriptorsOff (spec : GStr)
  | badDescriptor (spec : GStr)
  | badDuration (spec : GStr)
  | badFieldCount (lo hi got : Nat)
  | unknownOptional
  | multipleOptionals
  | badInt (expr : GStr)
  | negativeInt (expr : GStr)
  | tooManyHyphens (expr : GStr)
  | tooManySlashes (expr : GStr)
  | belowMinimum (start mn : Nat) (expr : GStr)
  | aboveMaximum (stop mx : Nat) (expr : GStr)
  | startBeyondEnd (start stop : Nat) (expr : GStr)
  | zeroStep (expr : GStr)
  deriving DecidableEq, Repr

/-- Field bounds (parser `bounds`): names map to values (months, weekdays). -/
structure Bounds where
  min : Nat
  max : Nat
  names : List (GStr × Nat)

def secondsB : Bounds := ⟨0, 59, []⟩
def minutesB : Bounds := ⟨0, 59, []⟩
def hoursB : Bounds := ⟨0, 23, []⟩
def domB : Bounds := ⟨1, 31, []⟩
def monthsB : Bounds := ⟨1, 12,
  [("jan".toList, 1), ("feb".toList, 2), ("mar".toList, 3), ("apr".toList, 4),
   ("may".toList, 5), ("jun".toList, 6), ("jul".toList, 7), ("aug".toList, 8),
   ("sep".toList, 9), ("oct".toList, 10), ("nov".toList, 11), ("dec".toList, 12)]⟩
def dowB : Bounds := ⟨0, 6,
  [("sun".toList, 0), ("mon".toList, 1), ("tue".toList, 2), ("wed".toList, 3),
   ("thu".toList, 4), ("fri".toList, 5), ("sat".toList, 6)]⟩

/-- Digit-string value (the digits part of `strconv.Atoi`). -/
def digitsValAux : GStr → Nat → Option Nat
  | [], acc => some acc
  | c :: r, acc =>
    if '0' ≤ c ∧ c ≤ '9' then digitsValAux r (acc * 10 + (c.toNat - '0'.toNat)) else none

/-- Go `strconv.Atoi` (bounded-size overflow is not modelled). -/
def atoi (s : GStr) : Option Int :=
  match s with
  | [] => none
  | '-' :: rest => if rest = [] then none else (digitsValAux rest 0).map (fun n => -(n : Int))
  | '+' :: rest => if rest = [] then none else (digitsValAux rest 0).map (fun n => (n : Int))
  | _ => (digitsValAux s 0).map (fun n => (n : Int))

/-- The function `mustParseInt` (parser lines 354-364). -/
def mustParseInt (expr : GStr) : Except PErr Nat :=
  match atoi expr with
  | none => .error (.badInt expr)
  | some num => if num < 0 then .error (.negativeInt expr) else .ok num.toNat

/-- Lower-casing for the name lookup. -/
def toLowerStr (s : GStr) : GStr := s.map Char.toLower

/-- The function `parseIntOrName` (parser lines 344-351). -/
def parseIntOrName (expr : GStr) (names : List (GStr × Nat)) : Except PErr Nat :=
  match names.lookup (toLowerStr expr) with
  | some v => .ok v
  | none => mustParseInt expr

/-- The function `getRange` (parser lines 275-341). -/
def getRange (expr : GStr) (r : Bounds) : Except PErr Nat := do
  let rangeAndStep := splitCh '/' expr
  let lowAndHigh := splitCh '-' (rangeAndStep.headD [])
  let singleDigit := lowAndHigh.length = 1
  let (start, stop, extra) ←
    if lowAndHigh.headD [] = ['*'] ∨ lowAndHigh.headD [] = ['?'] then
      pure (r.min, r.max, starBit)
    else do
      let start ← parseIntOrName (lowAndHigh.headD []) r.names
      match lowAndHigh with
      | [_] => pure (start, start, 0)
      | [_, hi] => do
          let stop ← parseIntOrName hi r.names
          pure (start, stop, 0)
      | _ => throw (.tooManyHyphens expr)
  let (step, stop, extra) ←
    match rangeAndStep with
    | [_] => pure (1, stop, extra)
    | [_, st] => do
        let step ← mustParseInt st
        let stop := if singleDigit then r.max else stop
        let extra := if step > 1 then 0 else extra
        pure (step, stop, extra)
    | _ => throw (.tooManySlashes expr)
  if start < r.min then throw (.belowMinimum start r.min expr)
  else if stop > r.max then throw (.aboveMaximum stop r.max expr)
  else if start > stop then throw (.startBeyondEnd start stop expr)
  else if step = 0 then throw (.zeroStep expr)
  else pure (getBits start stop step ||| extra)

/-- The function `getField` (parser lines 259-270). -/
def getField (field : GStr) (r : Bounds) : Except PErr Nat :=
  (fieldsBy ',' field).foldlM (fun bits expr => do pure (bits ||| (← getRange expr r))) 0

/-! ### Parser configuration and `Parse` (parser lines 41-255) -/

/-- ParseOption bit flags (parser lines 44-54). -/
def oSecond : Nat := 1
def oSecondOptional : Nat := 2
def oMinute : Nat := 4
def oHour : Nat := 8
def oDom : Nat := 16
def oMonth : Nat := 32
def oDow : Nat := 64
def oDowOptional : Nat := 128
def oDescriptor : Nat := 256

def placesGo : List Nat := [oSecond, oMinute, oHour, oDom, oMonth, oDow]

def defaultsGo : List GStr :=
  ["0".toList, "0".toList, "0".toList, "*".toList, "*".toList, "*".toList]

/-- The options of `standardParser` (parser lines 242-244). -/
def standardOptions : Nat := oMinute + oHour + oDom + oMonth + oDow + oDescriptor

/-- The function `normalizeFields` (parser lines 185-240). -/
def normalizeFields (fields : List GStr) (options : Nat) : Except PErr (List GStr) := do
  let mut optionals := 0
  let mut opts := options
  if opts &&& oSecondOptional > 0 then
    opts := opts ||| oSecond
    optionals := optionals + 1
  if opts &&& oDowOptional > 0 then
    opts := opts ||| oDow
    optionals := optionals + 1
  if optionals > 1 then throw .multipleOptionals
  let mx := (placesGo.filter (fun p => opts &&& p > 0)).length
  let mn := mx - optionals
  if fields.length < mn ∨ fields.length > mx then
    throw (.badFieldCount mn mx fields.length)
  let mut fs := fields
  if mn < mx ∧ fields.length = mn then
    if opts &&& oDowOptional > 0 then
      fs := fs ++ [defaultsGo.getD 5 []]
    else if opts &&& oSecondOptional > 0 then
      fs := defaultsGo.getD 0 [] :: fs
    else
      throw .unknownOptional
  let mut expanded := defaultsGo
  let mut n := 0
  for i in [0:6] do
    if opts &&& placesGo.getD i 0 > 0 then
      expanded := expanded.set i (fs.getD n [])
      n := n + 1
  return expanded

/-- A parsed schedule is either field-based or an interval schedule
(`@every`). -/
inductive Sched where
  | spec (s : SpecSchedule)
  | every (d : ConstantDelaySchedule)
  deriving DecidableEq, Repr

/-- Outcome of running Go code that can panic: `panicked` models a runtime
panic reaching the caller. -/
inductive GoRes (α : Type _) where
  | ok (a : α)
  | err (e : PErr)
  | panicked
  deriving DecidableEq, Repr

/-- The function `parseDescriptor` (parser lines 388-457), with
`time.ParseDuration` supplied as an oracle. -/
def parseDescriptor (parseDuration : GStr → Option Int) (descriptor : GStr) :
    Except PErr Sched :=
  if descriptor = "@yearly".toList ∨ descriptor = "@annually".toList then
    .ok (.spec ⟨1 <<< secondsB.min, 1 <<< minutesB.min, 1 <<< hoursB.min,
      1 <<< domB.min, 1 <<< monthsB.min, getBits dowB.min dowB.max 1 ||| starBit⟩)
  else if descriptor = "@monthly".toList then
    .ok (.spec ⟨1 <<< secondsB.min, 1 <<< minutesB.min, 1 <<< hoursB.min,
      1 <<< domB.min, getBits monthsB.min monthsB.max 1 ||| starBit,
      getBits dowB.min dowB.max 1 ||| starBit⟩)
  else if descriptor = "@weekly".toList then
    .ok (.spec ⟨1 <<< secondsB.min, 1 <<< minutesB.min, 1 <<< hoursB.min,
      getBits domB.min domB.max 1 ||| starBit, getBits monthsB.min monthsB.max 1 ||| starBit,
      1 <<< dowB.min⟩)
  else if descriptor = "@daily".toList ∨ descriptor = "@midnight".toList then
    .ok (.spec ⟨1 <<< secondsB.min, 1 <<< minutesB.min, 1 <<< hoursB.min,
      getBits domB.min domB.max 1 ||| starBit, getBits monthsB.min monthsB.max 1 ||| starBit,
      getBits dowB.min dowB.max 1 ||| starBit⟩)
  else if descriptor = "@hourly".toList then
    .ok (.spec ⟨1 <<< secondsB.min, 1 <<< minutesB.min, getBits hoursB.min hoursB.max 1 ||| starBit,
      getBits domB.min domB.max 1 ||| starBit, getBits monthsB.min monthsB.max 1 ||| starBit,
      getBits dowB.min dowB.max 1 ||| starBit⟩)
  else if descriptor.take 7 = "@every ".toList then
    match parseDuration (descriptor.drop 7) with
    | none => .error (.badDuration descriptor)
    | some d => .ok (.every (Every d))
  else .error (.badDescriptor descriptor)

/-- The method `Parser.Parse` (parser lines 115-180).  `loadLocation` is the
`time.LoadLocation` oracle (valid names); `parseDuration` the
`time.ParseDuration` oracle.  A `GoRes.panicked` result models a runtime
panic (the unchecked slice on the timezone prefix). -/
def parseGo (options : Nat) (loadLocation : GStr → Bool) (parseDuration : GStr → Option Int)
    (spec : GStr) : GoRes Sched := Id.run do
  if spec.length = 0 then return .err .emptySpec
  let mut sp := spec
  if sp.take 3 = "TZ=".toList ∨ sp.take 8 = "CRON_TZ=".toList then
    let i := goIndexCh sp ' '
    let eq := goIndexCh sp '='
    match goSlice sp (eq + 1) i with
    | none => return .panicked
    | some name =>
      if !loadLocation name then return .err (.badLocation name)
      match goSlice sp i sp.length with
      | none => return .panicked
      | some rest => sp := goTrimSpace rest
  if sp.headD ' ' = '@' then
    if options &&& oDescriptor = 0 then return .err (.descriptorsOff sp)
    match parseDescriptor parseDuration sp with
    | .ok s => return .ok s
    | .error e => return .err e
  let fields := goFields sp
  match normalizeFields fields options with
  | .error e => return .err e
  | .ok nf =>
    match (do
      let second ← getField (nf.getD 0 []) secondsB
      let minute ← getField (nf.getD 1 []) minutesB
      let hour ← getField (nf.getD 2 []) hoursB
      let dom ← getField (nf.getD 3 []) domB
      let month ← getField (nf.getD 4 []) monthsB
      let dow ← getField (nf.getD 5 []) dowB
      pure (SpecSchedule.mk second minute hour dom month dow) :
        Except PErr SpecSchedule) with
    | .error e => return .err e
    | .ok s => return .ok (.spec s)

/-! ## Engine pieces: entries, identities, ordering, dispatch (cron.go) -/

/-- A cron entry over an abstract job type `J` (cron.go lines 49-69):
`Next = none` models the zero `time.Time`; the entry's `Schedule.Next`
method is the function field `SchedNext`. -/
structure GEntry (J : Type _) where
  ID : Nat
  SchedNext : DT → Option DT
  Next : Option DT
  Prev : Option DT
  WrappedJob : J
  Job : J

/-- The method `Entry.Valid` (cron.go line 72). -/
def GEntry.valid {J : Type _} (e : GEntry J) : Bool := e.ID != 0

/-- Chronological comparison of the wall-clock model (Go `Time.Before`). -/
def DT.before (a b : DT) : Bool := nsKey a < nsKey b

/-- The comparator `byTime.Less` (cron.go lines 79-90). -/
def byTimeLess {J : Type _} (a b : GEntry J) : Bool :=
  match a.Next, b.Next with
  | none, _ => false
  | some _, none => true
  | some x, some y => DT.before x y

/-- Mutable engine state relevant to identity allocation (cron.go `Cron`):
`nextID` starts at 0 in `New`. -/
structure CronState (J : Type _) where
  nextID : Nat
  entries : List (GEntry J)

/-- The state `New` creates (cron.go lines 109-127): no entries, zero id. -/
def newCronState (J : Type _) : CronState J := ⟨0, []⟩

/-- The method `Cron.Schedule` on a stopped engine (cron.go lines 154-170):
increments `nextID`, wraps the job through the chain, appends the entry. -/
def cronSchedule {J : Type _} (chain : Chain J) (st : CronState J)
    (schedNext : DT → Option DT) (cmd : J) : CronState J × Nat :=
  let id := st.nextID + 1
  let entry : GEntry J := ⟨id, schedNext, none, none, chain.Then cmd, cmd⟩
  (⟨id, st.entries ++ [entry]⟩, id)

/-- Repeated registration of jobs (each a schedule function and a job). -/
def registerAll {J : Type _} (chain : Chain J) (st : CronState J)
    (cmds : List ((DT → Option DT) × J)) : CronState J :=
  cmds.foldl (fun acc c => (cronSchedule chain acc c.1 c.2).1) st

/-- One timer wake-up of the run loop (cron.go lines 263-272): walk the
sorted entries, dispatch every due entry (updating `Prev`/`Next` in place)
and stop at the first entry whose `Next` is after `now` or zero.  Returns
the dispatched jobs in dispatch order and the updated entry list. -/
def runDue {J : Type _} (now : DT) : List (GEntry J) → List J × List (GEntry J)
  | [] => ([], [])
  | e :: rest =>
    if (match e.Next with
        | none => true
        | some nx => DT.before now nx) then
      ([], e :: rest)
    else
      let e2 := { e with Prev := e.Next, Next := e.SchedNext now }
      let (js, es) := runDue now rest
      (e.WrappedJob :: js, e2 :: es)

/-- Due test used by the loop's break condition, negated: the entry is
dispatched iff its `Next` is nonzero and not after `now`. -/
def isDue {J : Type _} (now : DT) (e : GEntry J) : Bool :=
  match e.Next with
  | none => false
  | some nx => !DT.before now nx

/-- The in-place update a dispatch performs (cron.go lines 269-270). -/
def dispatchUpd {J : Type _} (now : DT) (e : GEntry J) : GEntry J :=
  { e with Prev := e.Next, Next := e.SchedNext now }

/-! ## Auxiliary definitions for statements and proofs -/

/-- Fuelled decimal rendering (structural, so it evaluates by `decide`). -/
def natDigitsAux : Nat → Nat → GStr
  | 0, _ => []
  | f + 1, n =>
    if n < 10 then [Char.ofNat (48 + n)]
    else natDigitsAux f (n / 10) ++ [Char.ofNat (48 + n % 10)]

/-- Decimal rendering of a natural number (to state claims about concrete
numeric range expressions). -/
def natDigits (n : Nat) : GStr := natDigitsAux (n + 1) n

/-- No valid date-time in the half-open `secKey` interval satisfies the
schedule. -/
def NoMatch (s : SpecSchedule) (a b : Nat) : Prop :=
  ∀ u : DT, Valid u → a ≤ secKey u → secKey u < b → Matches s u = false

/-- Invariant of the `added` flag in `SpecSchedule.Next`: once a field has
been advanced, every field finer than a still-unsatisfied field has been
reset to its minimum. -/
def Pre (s : SpecSchedule) (a : Bool) (t : DT) : Prop :=
  a = true →
    ((monthOK s t = false → t.day = 1 ∧ t.hour = 0 ∧ t.minute = 0 ∧ t.second = 0) ∧
     (dayMatches s t = false → t.hour = 0 ∧ t.minute = 0 ∧ t.second = 0) ∧
     (hourOK s t = false → t.minute = 0 ∧ t.second = 0) ∧
     (minuteOK s t = false → t.second = 0))

/-! # Theorems

First the supporting lemmas, then one theorem per claim (with witnesses
for theorems that carry hypotheses). -/

/-! ## C2: day-of-month/day-of-week union law -/

/-- C2: if the wildcard sentinel is set in `Dom` or `Dow`, a day matches iff
both the day-of-month bit and the weekday bit are set; with the sentinel in
neither, it matches iff either bit is set (`dayMatches`, cron.go 523-532). -/
theorem claim_C2_dayMatches (s : SpecSchedule) (t : DT) :
    ((s.Dom &&& starBit ≠ 0 ∨ s.Dow &&& starBit ≠ 0) →
      (dayMatches s t = true ↔
        (bitTest s.Dom t.day = true ∧ bitTest s.Dow (weekday t) = true)))
  ∧ ((s.Dom &&& starBit = 0 ∧ s.Dow &&& starBit = 0) →
      (dayMatches s t = true ↔
        (bitTest s.Dom t.day = true ∨ bitTest s.Dow (weekday t) = true))) := by
  unfold dayMatches
  constructor
  · intro h
    have hb : (s.Dom &&& starBit != 0 || s.Dow &&& starBit != 0) = true := by
      rcases h with h | h <;> simp [h]
    simp [hb]
  · rintro ⟨h1, h2⟩
    simp [h1, h2]

/-- Witness for C2 at a concrete schedule and date (2024-01-01, a Monday):
one instance with the sentinel set, one without. -/
theorem claim_C2_dayMatches_witness :
    (dayMatches ⟨0, 0, 0, starBit ||| 2, 0, 8⟩ ⟨2024, 1, 1, 0, 0, 0, 0⟩ = true ↔
      (bitTest (SpecSchedule.mk 0 0 0 (starBit ||| 2) 0 8).Dom (DT.mk 2024 1 1 0 0 0 0).day = true ∧
       bitTest (SpecSchedule.mk 0 0 0 (starBit ||| 2) 0 8).Dow
         (weekday ⟨2024, 1, 1, 0, 0, 0, 0⟩) = true))
  ∧ (dayMatches ⟨0, 0, 0, 2, 0, 8⟩ ⟨2024, 1, 1, 0, 0, 0, 0⟩ = true ↔
      (bitTest (SpecSchedule.mk 0 0 0 2 0 8).Dom (DT.mk 2024 1 1 0 0 0 0).day = true ∨
       bitTest (SpecSchedule.mk 0 0 0 2 0 8).Dow (weekday ⟨2024, 1, 1, 0, 0, 0, 0⟩) = true)) :=
  ⟨(claim_C2_dayMatches ⟨0, 0, 0, starBit ||| 2, 0, 8⟩ ⟨2024, 1, 1, 0, 0, 0, 0⟩).1
      (Or.inl (by decide)),
   (claim_C2_dayMatches ⟨0, 0, 0, 2, 0, 8⟩ ⟨2024, 1, 1, 0, 0, 0, 0⟩).2 (by decide)⟩

/-! ## C6: the interval schedule -/

/-- C6: `Every` clamps durations below one second to one second and truncates
sub-second components (the stored delay is a whole positive number of
seconds), `next` adds the delay and drops the sub-second remainder, and
`Every(30s)` fires every 30 seconds on whole-second boundaries. -/
theorem claim_C6_every (d t : Int) (n : Nat) :
    goSecond ≤ (Every d).Delay
  ∧ (Every d).Delay % goSecond = 0
  ∧ (d < goSecond → (Every d).Delay = goSecond)
  ∧ (goSecond ≤ d → (Every d).Delay = d - d % goSecond)
  ∧ (Every d).next t = t + ((Every d).Delay - t % goSecond)
  ∧ cdsIter (Every (30 * goSecond)) t (n + 1)
      = (t - t % goSecond) + (n + 1) * (30 * goSecond) := by
  have hdelay30 : (Every (30 * goSecond)).Delay = 30 * goSecond := by decide
  refine ⟨?_, ?_, ?_, ?_, rfl, ?_⟩
  · unfold Every goSecond; dsimp only; split <;> omega
  · unfold Every goSecond; dsimp only; split <;> omega
  · intro h; unfold goSecond at h; unfold Every goSecond; dsimp only; rw [if_pos h]; omega
  · intro h; unfold goSecond at h; unfold Every goSecond; dsimp only; rw [if_neg (by omega)]
  · induction n with
    | zero =>
      show (Every (30 * goSecond)).next t = _
      unfold ConstantDelaySchedule.next
      rw [hdelay30]; unfold goSecond; push_cast; omega
    | succ n ih =>
      show (Every (30 * goSecond)).next (cdsIter (Every (30 * goSecond)) t (n + 1)) = _
      rw [ih]
      unfold ConstantDelaySchedule.next
      rw [hdelay30]
      have hmod : (t - t % goSecond + (↑n + 1) * (30 * goSecond)) % goSecond = 0 := by
        have h2 : t - t % goSecond + (↑n + 1) * (30 * goSecond)
            = (t - t % goSecond) + goSecond * ((↑n + 1) * 30) := by ring
        rw [h2, Int.add_mul_emod_self_left]
        unfold goSecond; omega
      rw [hmod]; push_cast; ring

/-- Witness for C6 discharging the two conditional conjuncts. -/
theorem claim_C6_every_witness :
    (Every (-5)).Delay = goSecond
  ∧ (Every (2 * goSecond + 7)).Delay = (2 * goSecond + 7) - (2 * goSecond + 7) % goSecond :=
  ⟨(claim_C6_every (-5) 0 0).2.2.1 (by decide),
   (claim_C6_every (2 * goSecond + 7) 0 0).2.2.2.1 (by decide)⟩

/-! ## C7: the decorator chain -/

theorem thenGo_foldr {J : Type} (ws : List (J → J)) :
    ∀ (r : Nat) (j : J), r ≤ ws.length →
      thenGo ws r j = (ws.take r).foldr (fun w a => w a) j := by
  intro r
  induction r with
  | zero => intro j _; simp [thenGo]
  | succ r ih =>
    intro j h
    have hr : r < ws.length := by omega
    rw [thenGo, ih _ (by omega), List.take_succ, List.getElem?_eq_getElem hr]
    rw [List.foldr_append]
    simp [List.getD_eq_getElem?_getD, List.getElem?_eq_getElem hr]

/-- C7: `NewChain(d1,...,dn).Then(r)` composes the wrappers right-to-left,
so the first wrapper is outermost (`d1(d2(...dn(r)))`), and the empty chain
returns the job unchanged (chain.go 20-35). -/
theorem claim_C7_chain (J : Type) (l : List (J → J)) (r : J) :
    (NewChain l).Then r = l.foldr (fun d acc => d acc) r
  ∧ (NewChain ([] : List (J → J))).Then r = r := by
  constructor
  · unfold NewChain Chain.Then
    simpa using thenGo_foldr l l.length r le_rfl
  · rfl

/-! ## C10: the two branches of getBits agree for step 1 -/

set_option maxRecDepth 1000000 in
/-- C10: for `min ≤ max ≤ 63` the shift fast path of `getBits` computes the
same bitset as the general accumulation loop with step 1. -/
theorem claim_C10_getBits : ∀ mx < 64, ∀ mn < 64, mn ≤ mx →
    getBits mn mx 1 = bitsLoopGo mx 1 (mx + 1 - mn) mn := by decide

/-- Witness for C10 at `min = 3`, `max = 63`. -/
theorem claim_C10_getBits_witness : getBits 3 63 1 = bitsLoopGo 63 1 61 3 :=
  claim_C10_getBits 63 (by decide) 3 (by decide) (by decide)

/-! ## C8: identity allocation -/

theorem registerAll_ids {J : Type} (chain : Chain J) :
    ∀ (cmds : List ((DT → Option DT) × J)) (st : CronState J),
      (registerAll chain st cmds).nextID = st.nextID + cmds.length
    ∧ ((registerAll chain st cmds).entries).map GEntry.ID
        = st.entries.map GEntry.ID ++ List.range' (st.nextID + 1) cmds.length 1 := by
  intro cmds
  induction cmds with
  | nil => intro st; simp [registerAll]
  | cons c cs ih =>
    intro st
    have h := ih (cronSchedule chain st c.1 c.2).1
    unfold registerAll at h ⊢
    simp only [List.foldl_cons]
    refine ⟨?_, ?_⟩
    · rw [h.1]; simp [cronSchedule]; omega
    · rw [h.2]
      simp only [cronSchedule, List.range'_succ, List.map_append, List.map_cons,
        List.map_nil, List.length_cons]
      simp

/-- C8: entry identities allocated by `Cron.Schedule` form the strictly
increasing sequence 1, 2, ..., n (hence are unique and never 0), and
`Entry.Valid` holds exactly for nonzero identities (cron.go 154-170, 72). -/
theorem claim_C8_ids (J : Type) (chain : Chain J)
    (cmds : List ((DT → Option DT) × J)) :
    ((registerAll chain (newCronState J) cmds).entries).map GEntry.ID
        = List.range' 1 cmds.length 1
  ∧ (((registerAll chain (newCronState J) cmds).entries).map GEntry.ID).Nodup
  ∧ (0 ∉ ((registerAll chain (newCronState J) cmds).entries).map GEntry.ID)
  ∧ (∀ e : GEntry J, e.valid = true ↔ e.ID ≠ 0) := by
  have h : ((registerAll chain (newCronState J) cmds).entries).map GEntry.ID
      = List.range' 1 cmds.length 1 := by
    have h0 := (registerAll_ids chain cmds (newCronState J)).2
    simpa [newCronState] using h0
  refine ⟨h, ?_, ?_, ?_⟩
  · rw [h]; exact List.nodup_range' _ _
  · rw [h]; intro hmem
    have := List.mem_range'_1.mp hmem
    omega
  · intro e; unfold GEntry.valid; simp

/-- Witness for C8: a single registration yields exactly the ID list `[1]`,
and a concrete entry with ID 2 is valid. -/
theorem claim_C8_ids_witness :
    ((registerAll (NewChain []) (newCronState Unit)
        [(fun _ => none, ())]).entries).map GEntry.ID = List.range' 1 1 1
  ∧ ((⟨2, fun _ => none, none, none, (), ()⟩ : GEntry Unit).valid = true ↔
      (⟨2, fun _ => none, none, none, (), ()⟩ : GEntry Unit).ID ≠ 0) :=
  ⟨(claim_C8_ids Unit (NewChain []) [(fun _ => none, ())]).1,
   (claim_C8_ids Unit (NewChain []) []).2.2.2 ⟨2, fun _ => none, none, none, (), ()⟩⟩

/-! ## C9: entry ordering and the dispatch loop -/

theorem breakCond_eq_not_isDue {J : Type} (now : DT) (e : GEntry J) :
    (match e.Next with
     | none => true
     | some nx => DT.before now nx) = !isDue now e := by
  cases h : e.Next <;> simp [isDue, h]

theorem runDue_takeWhile {J : Type} (now : DT) :
    ∀ l : List (GEntry J),
      (runDue now l).1 = (l.takeWhile (isDue now)).map GEntry.WrappedJob
    ∧ (runDue now l).2
        = (l.takeWhile (isDue now)).map (dispatchUpd now) ++ l.dropWhile (isDue now) := by
  intro l
  induction l with
  | nil => simp [runDue]
  | cons e rest ih =>
    rw [runDue, breakCond_eq_not_isDue]
    cases hdue : isDue now e with
    | false => simp [List.takeWhile_cons, List.dropWhile_cons, hdue]
    | true => simp [List.takeWhile_cons, List.dropWhile_cons, hdue, ih.1, ih.2, dispatchUpd]

/-- C9: `byTime.Less` sorts ascending by `Next` with zero times last
(cron.go 79-90), and one wake-up of the run loop dispatches exactly the due
prefix of the sorted entry list, in nearest-deadline-first order, stopping
at the first entry whose `Next` is after `now` or zero (cron.go 263-272). -/
theorem claim_C9_order (J : Type) (now : DT) (l : List (GEntry J)) :
    (∀ a b : GEntry J,
        (a.Next = none → byTimeLess a b = false)
      ∧ (a.Next ≠ none → b.Next = none → byTimeLess a b = true)
      ∧ (∀ x y, a.Next = some x → b.Next = some y → byTimeLess a b = DT.before x y))
  ∧ (runDue now l).1 = (l.takeWhile (isDue now)).map GEntry.WrappedJob
  ∧ (runDue now l).2
      = (l.takeWhile (isDue now)).map (dispatchUpd now) ++ l.dropWhile (isDue now)
  ∧ (∀ e ∈ l.takeWhile (isDue now), isDue now e = true)
  ∧ (List.Pairwise (fun p q : GEntry J => byTimeLess q p = false) l →
      List.Pairwise (fun p q : GEntry J =>
        ∀ x y, p.Next = some x → q.Next = some y → nsKey x ≤ nsKey y)
        (l.takeWhile (isDue now))) := by
  refine ⟨?_, (runDue_takeWhile now l).1, (runDue_takeWhile now l).2,
    fun e he => List.mem_takeWhile_imp he, ?_⟩
  · intro a b
    refine ⟨?_, ?_, ?_⟩
    · intro h; simp [byTimeLess, h]
    · intro h1 h2
      rcases ha : a.Next with _ | x
      · exact absurd ha h1
      · simp [byTimeLess, ha, h2]
    · intro x y hx hy; simp [byTimeLess, hx, hy]
  · intro hp
    have hsub := List.Pairwise.sublist (List.takeWhile_sublist (l := l) (isDue now)) hp
    refine hsub.imp ?_
    intro p q hqp x y hx hy
    simp only [byTimeLess, hx, hy] at hqp
    simp only [DT.before, decide_eq_false_iff_not, Nat.not_lt] at hqp
    exact hqp

/-- Witness for C9 on a concrete three-entry list (due, due, zero):
the two due jobs dispatch in order and the sorted prefix is ordered. -/
theorem claim_C9_order_witness :
    (runDue ⟨2024, 1, 2, 0, 0, 0, 0⟩
        ([⟨1, fun _ => none, some ⟨2024, 1, 1, 0, 0, 0, 0⟩, none, 10, 10⟩,
          ⟨2, fun _ => none, some ⟨2024, 1, 1, 12, 0, 0, 0⟩, none, 20, 20⟩,
          ⟨3, fun _ => none, none, none, 30, 30⟩] : List (GEntry Nat))).1
      = (([⟨1, fun _ => none, some ⟨2024, 1, 1, 0, 0, 0, 0⟩, none, 10, 10⟩,
           ⟨2, fun _ => none, some ⟨2024, 1, 1, 12, 0, 0, 0⟩, none, 20, 20⟩,
           ⟨3, fun _ => none, none, none, 30, 30⟩] : List (GEntry Nat)).takeWhile
            (isDue ⟨2024, 1, 2, 0, 0, 0, 0⟩)).map GEntry.WrappedJob
  ∧ List.Pairwise (fun p q : GEntry Nat =>
        ∀ x y, p.Next = some x → q.Next = some y → nsKey x ≤ nsKey y)
      (([⟨1, fun _ => none, some ⟨2024, 1, 1, 0, 0, 0, 0⟩, none, 10, 10⟩,
         ⟨2, fun _ => none, some ⟨2024, 1, 1, 12, 0, 0, 0⟩, none, 20, 20⟩,
         ⟨3, fun _ => none, none, none, 30, 30⟩] : List (GEntry Nat)).takeWhile
           (isDue ⟨2024, 1, 2, 0, 0, 0, 0⟩)) :=
  ⟨(claim_C9_order Nat ⟨2024, 1, 2, 0, 0, 0, 0⟩ _).2.1,
   (claim_C9_order Nat ⟨2024, 1, 2, 0, 0, 0, 0⟩ _).2.2.2.2 (by decide)⟩

/-! ## C3: Parse panics on a timezone prefix with no blank -/

/-- C3 (code bug): `Parser.Parse` is claimed never to panic, but on the
input `TZ=UTC` (a timezone prefix with no following blank) the slice
`spec[eq+1 : i]` runs with `i = -1` and panics, for every location and
duration oracle (parser lines 122-130). -/
theorem claim_C3_parse_panics (loadLocation : GStr → Bool)
    (parseDuration : GStr → Option Int) :
    parseGo standardOptions loadLocation parseDuration ("TZ=UTC".toList) = .panicked := by
  rfl

/-! ## Digit strings, splitting, and bitset characterization (for C4/C5) -/

theorem digitCharFacts : ∀ k < 10,
    (('0' ≤ Char.ofNat (48 + k) ∧ Char.ofNat (48 + k) ≤ '9')
  ∧ Char.ofNat (48 + k) ≠ '-' ∧ Char.ofNat (48 + k) ≠ '+'
  ∧ Char.ofNat (48 + k) ≠ '/' ∧ Char.ofNat (48 + k) ≠ ','
  ∧ Char.ofNat (48 + k) ≠ '*' ∧ Char.ofNat (48 + k) ≠ '?')
  ∧ (Char.ofNat (48 + k)).toNat - '0'.toNat = k := by decide

theorem natDigitsAux_mem :
    ∀ f n, n < f → ∀ c ∈ natDigitsAux f n, ∃ k, k < 10 ∧ c = Char.ofNat (48 + k) := by
  intro f
  induction f with
  | zero => intro n h; omega
  | succ f ih =>
    intro n h c hc
    rw [natDigitsAux] at hc
    by_cases h10 : n < 10
    · rw [if_pos h10] at hc
      simp only [List.mem_singleton] at hc
      exact ⟨n, h10, hc⟩
    · rw [if_neg h10] at hc
      rcases List.mem_append.mp hc with h1 | h2
      · exact ih (n / 10) (by omega) c h1
      · simp only [List.mem_singleton] at h2
        exact ⟨n % 10, Nat.mod_lt _ (by omega), h2⟩

theorem natDigits_mem {n : Nat} : ∀ c ∈ natDigits n, ∃ k, k < 10 ∧ c = Char.ofNat (48 + k) :=
  natDigitsAux_mem (n + 1) n (by omega)

theorem natDigits_ne_nil (n : Nat) : natDigits n ≠ [] := by
  unfold natDigits natDigitsAux
  split <;> simp

theorem digitsValAux_append : ∀ (xs ys : GStr) (acc : Nat),
    digitsValAux (xs ++ ys) acc =
      match digitsValAux xs acc with
      | none => none
      | some m => digitsValAux ys m := by
  intro xs
  induction xs with
  | nil => intro ys acc; rfl
  | cons c cs ih =>
    intro ys acc
    rw [List.cons_append]
    simp only [digitsValAux]
    by_cases h : '0' ≤ c ∧ c ≤ '9'
    · rw [if_pos h, if_pos h, ih]
    · rw [if_neg h, if_neg h]

theorem natDigitsAux_val : ∀ f n acc, n < f →
    digitsValAux (natDigitsAux f n) acc
      = some (acc * 10 ^ (natDigitsAux f n).length + n) := by
  intro f
  induction f with
  | zero => intro n acc h; omega
  | succ f ih =>
    intro n acc h
    rw [natDigitsAux]
    by_cases h10 : n < 10
    · rw [if_pos h10]
      have hf := digitCharFacts n h10
      simp only [digitsValAux]
      rw [if_pos hf.1.1]
      simp only [digitsValAux, List.length_singleton, pow_one, hf.2]
    · rw [if_neg h10]
      rw [digitsValAux_append, ih (n / 10) acc (by omega)]
      have hf := digitCharFacts (n % 10) (Nat.mod_lt _ (by omega))
      simp only [digitsValAux]
      rw [if_pos hf.1.1, hf.2]
      simp only [digitsValAux, List.length_append, List.length_singleton]
      congr 1
      rw [pow_succ, ← mul_assoc]
      generalize acc * 10 ^ (natDigitsAux f (n / 10)).length = B
      omega

theorem atoi_natDigits (n : Nat) : atoi (natDigits n) = some (n : Int) := by
  have hval : digitsValAux (natDigits n) 0 = some n := by
    have h := natDigitsAux_val (n + 1) n 0 (by omega)
    simpa [natDigits] using h
  rcases hl : natDigits n with _ | ⟨c, cs⟩
  · exact absurd hl (natDigits_ne_nil n)
  · have hc : c ≠ '-' ∧ c ≠ '+' := by
      have hmem : c ∈ natDigits n := by rw [hl]; exact List.mem_cons_self _ _
      obtain ⟨k, hk, rfl⟩ := natDigits_mem c hmem
      exact ⟨(digitCharFacts k hk).1.2.1, (digitCharFacts k hk).1.2.2.1⟩
    rw [hl] at hval
    unfold atoi
    split
    · next heq => simp at heq
    · next rest heq =>
        injection heq with h1 _
        exact absurd h1 hc.1
    · next rest heq =>
        injection heq with h1 _
        exact absurd h1 hc.2
    · rw [hval]; rfl

theorem mustParseInt_natDigits (n : Nat) : mustParseInt (natDigits n) = .ok n := by
  unfold mustParseInt
  rw [atoi_natDigits]
  simp

theorem parseIntOrName_natDigits (n : Nat) (names : List (GStr × Nat))
    (h : names.lookup (toLowerStr (natDigits n)) = none) :
    parseIntOrName (natDigits n) names = .ok n := by
  unfold parseIntOrName
  rw [h, mustParseInt_natDigits]

theorem splitCh_of_not_mem {sep : Char} : ∀ {s : GStr}, sep ∉ s → splitCh sep s = [s] := by
  intro s
  induction s with
  | nil => intro _; rfl
  | cons c cs ih =>
    intro h
    rw [splitCh, if_neg (by simp at h; exact fun hc => h.1 hc.symm)]
    rw [ih (by simp at h; exact h.2)]

theorem splitCh_append {sep : Char} : ∀ (xs ys : GStr), sep ∉ xs →
    splitCh sep (xs ++ sep :: ys) = xs :: splitCh sep ys := by
  intro xs
  induction xs with
  | nil => intro ys _; simp [splitCh]
  | cons c cs ih =>
    intro ys h
    rw [List.cons_append, splitCh, if_neg (by simp at h; exact fun hc => h.1 hc.symm)]
    rw [ih ys (by simp at h; exact h.2)]

theorem natDigits_not_mem (n : Nat) (c : Char)
    (hc : c = '-' ∨ c = '+' ∨ c = '/' ∨ c = ',') : c ∉ natDigits n := by
  intro hmem
  obtain ⟨k, hk, rfl⟩ := natDigits_mem c hmem
  have hf := (digitCharFacts k hk).1
  rcases hc with h | h | h | h
  · exact hf.2.1 h
  · exact hf.2.2.1 h
  · exact hf.2.2.2.1 h
  · exact hf.2.2.2.2.1 h

theorem natDigits_ne_star (n : Nat) : natDigits n ≠ ['*'] ∧ natDigits n ≠ ['?'] := by
  constructor <;> intro h
  · have : '*' ∈ natDigits n := by rw [h]; exact List.mem_singleton_self _
    obtain ⟨k, hk, hstar⟩ := natDigits_mem _ this
    exact (digitCharFacts k hk).1.2.2.2.2.2.1 hstar.symm
  · have : '?' ∈ natDigits n := by rw [h]; exact List.mem_singleton_self _
    obtain ⟨k, hk, hq⟩ := natDigits_mem _ this
    exact (digitCharFacts k hk).1.2.2.2.2.2.2 hq.symm

theorem bitsLoopGo_testBit (mx st : Nat) (hst : 1 ≤ st) (hmx : mx ≤ 63) :
    ∀ f i, mx + 1 - i ≤ f → ∀ j,
      ((bitsLoopGo mx st f i).testBit j = true ↔ (∃ k, j = i + st * k ∧ j ≤ mx)) := by
  intro f
  induction f with
  | zero =>
    intro i hf j
    rw [bitsLoopGo]
    simp only [Nat.zero_testBit, Bool.false_eq_true, false_iff]
    rintro ⟨k, rfl, hj⟩
    omega
  | succ f ih =>
    intro i hf j
    rw [bitsLoopGo]
    by_cases hi : i ≤ mx
    · rw [if_pos hi]
      have hshift : (1 <<< i) % 2 ^ 64 = 2 ^ i := by
        rw [Nat.shiftLeft_eq, one_mul]
        exact Nat.mod_eq_of_lt (Nat.pow_lt_pow_right (by omega) (by omega))
      rw [hshift, Nat.testBit_lor, Nat.testBit_two_pow]
      rw [Bool.or_eq_true, decide_eq_true_eq]
      constructor
      · rintro (rfl | h)
        · exact ⟨0, by omega, hi⟩
        · obtain ⟨k, rfl, hj⟩ := (ih (i + st) (by omega) j).mp h
          refine ⟨k + 1, ?_, hj⟩
          rw [Nat.mul_succ]
          omega
      · rintro ⟨k, rfl, hj⟩
        rcases k with _ | k
        · left; omega
        · right
          refine (ih (i + st) (by omega) _).mpr ⟨k, ?_, hj⟩
          rw [Nat.mul_succ] at hj ⊢
          omega
    · rw [if_neg hi]
      simp only [Nat.zero_testBit, Bool.false_eq_true, false_iff]
      rintro ⟨k, rfl, hj⟩
      omega

theorem shiftPath_testBit (mn mx : Nat) (hmx : mx ≤ 63) (j : Nat) :
    ((MaxUint64 ^^^ ((MaxUint64 <<< (mx + 1)) % 2 ^ 64))
        &&& ((MaxUint64 <<< mn) % 2 ^ 64)).testBit j
      = (decide (mn ≤ j) && decide (j ≤ mx)) := by
  have hm : MaxUint64 = 2 ^ 64 - 1 := rfl
  rw [Nat.testBit_land, Nat.testBit_xor, Nat.testBit_mod_two_pow, Nat.testBit_mod_two_pow,
    Nat.testBit_shiftLeft, Nat.testBit_shiftLeft, hm, Nat.testBit_two_pow_sub_one,
    Nat.testBit_two_pow_sub_one, Nat.testBit_two_pow_sub_one]
  by_cases h64 : j < 64
  · by_cases h1 : mn ≤ j
    · by_cases h2 : j ≤ mx
      · have e2 : ¬(mx + 1 ≤ j) := by omega
        have e4 : j - mn < 64 := by omega
        simp [h64, h1, h2, e2, e4]
      · have e2 : mx + 1 ≤ j := by omega
        have e3 : j - (mx + 1) < 64 := by omega
        simp [h64, h1, h2, e2, e3]
    · simp [h64, h1]
  · have e5 : ¬(j ≤ mx) := by omega
    simp [h64, e5]

theorem getBits_testBit (mn mx st : Nat) (hst : 1 ≤ st) (hmx : mx ≤ 63) (j : Nat) :
    ((getBits mn mx st).testBit j = true ↔ (∃ k, j = mn + st * k ∧ j ≤ mx)) := by
  unfold getBits
  by_cases h1 : st = 1
  · subst h1
    rw [if_pos rfl, shiftPath_testBit mn mx hmx]
    rw [Bool.and_eq_true, decide_eq_true_eq, decide_eq_true_eq]
    constructor
    · rintro ⟨h2, h3⟩; exact ⟨j - mn, by omega, h3⟩
    · rintro ⟨k, rfl, hj⟩; omega
  · rw [if_neg h1]
    exact bitsLoopGo_testBit mx st hst hmx (mx + 1 - mn) mn le_rfl j

theorem starBit_eq : starBit = 2 ^ 63 := by
  rw [starBit, Nat.shiftLeft_eq, one_mul]

theorem getBits_and_starBit (mn mx st : Nat) (hst : 1 ≤ st) (hmx : mx ≤ 62) :
    getBits mn mx st &&& starBit = 0 := by
  rw [starBit_eq, Nat.and_two_pow]
  have : (getBits mn mx st).testBit 63 = false := by
    rw [Bool.eq_false_iff]
    intro h
    obtain ⟨k, hk, hj⟩ := (getBits_testBit mn mx st hst (by omega) 63).mp h
    omega
  rw [this]
  rfl

theorem getRange_NM (r : Bounds) (N M : Nat)
    (hN : r.names.lookup (toLowerStr (natDigits N)) = none)
    (hM : r.names.lookup (toLowerStr (natDigits M)) = none) :
    getRange (natDigits N ++ '-' :: natDigits M) r
      = (if N < r.min then
           .error (.belowMinimum N r.min (natDigits N ++ '-' :: natDigits M))
         else if r.max < M then
           .error (.aboveMaximum M r.max (natDigits N ++ '-' :: natDigits M))
         else if M < N then
           .error (.startBeyondEnd N M (natDigits N ++ '-' :: natDigits M))
         else .ok (getBits N M 1)) := by
  have hs1 : splitCh '/' (natDigits N ++ '-' :: natDigits M)
      = [natDigits N ++ '-' :: natDigits M] := by
    refine splitCh_of_not_mem ?_
    intro h
    rcases List.mem_append.mp h with h | h
    · exact natDigits_not_mem N '/' (by simp) h
    · rcases List.mem_cons.mp h with h | h
      · simp at h
      · exact natDigits_not_mem M '/' (by simp) h
  have hs2 : splitCh '-' (natDigits N ++ '-' :: natDigits M)
      = [natDigits N, natDigits M] := by
    rw [splitCh_append _ _ (natDigits_not_mem N '-' (by simp)),
      splitCh_of_not_mem (natDigits_not_mem M '-' (by simp))]
  unfold getRange
  rw [hs1]
  simp only [List.headD_cons]
  rw [hs2]
  rw [if_neg (by rcases natDigits_ne_star N with ⟨h1, h2⟩; rintro (h | h) <;> simp_all)]
  simp only [List.headD_cons]
  rw [parseIntOrName_natDigits N r.names hN, parseIntOrName_natDigits M r.names hM]
  simp [Bind.bind, Except.bind, pure, Except.pure, throw, throwThe, Nat.or_zero]
  rfl

theorem getRange_NMS (r : Bounds) (N M S : Nat)
    (hN : r.names.lookup (toLowerStr (natDigits N)) = none)
    (hM : r.names.lookup (toLowerStr (natDigits M)) = none) :
    getRange (natDigits N ++ '-' :: natDigits M ++ '/' :: natDigits S) r
      = (if N < r.min then
           .error (.belowMinimum N r.min (natDigits N ++ '-' :: natDigits M ++ '/' :: natDigits S))
         else if r.max < M then
           .error (.aboveMaximum M r.max (natDigits N ++ '-' :: natDigits M ++ '/' :: natDigits S))
         else if M < N then
           .error (.startBeyondEnd N M (natDigits N ++ '-' :: natDigits M ++ '/' :: natDigits S))
         else if S = 0 then
           .error (.zeroStep (natDigits N ++ '-' :: natDigits M ++ '/' :: natDigits S))
         else .ok (getBits N M S)) := by
  have hassoc : natDigits N ++ '-' :: natDigits M ++ '/' :: natDigits S
      = (natDigits N ++ '-' :: natDigits M) ++ '/' :: natDigits S := by simp
  have hs1 : splitCh '/' (natDigits N ++ '-' :: natDigits M ++ '/' :: natDigits S)
      = [natDigits N ++ '-' :: natDigits M, natDigits S] := by
    rw [hassoc, splitCh_append _ _ (by
      intro h
      rcases List.mem_append.mp h with h | h
      · exact natDigits_not_mem N '/' (by simp) h
      · rcases List.mem_cons.mp h with h | h
        · simp at h
        · exact natDigits_not_mem M '/' (by simp) h)]
    rw [splitCh_of_not_mem (natDigits_not_mem S '/' (by simp))]
  have hs2 : splitCh '-' (natDigits N ++ '-' :: natDigits M)
      = [natDigits N, natDigits M] := by
    rw [splitCh_append _ _ (natDigits_not_mem N '-' (by simp)),
      splitCh_of_not_mem (natDigits_not_mem M '-' (by simp))]
  unfold getRange
  rw [hs1]
  simp only [List.headD_cons]
  simp only [hs2]
  rw [if_neg (by rcases natDigits_ne_star N with ⟨h1, h2⟩; rintro (h | h) <;> simp_all)]
  simp only [List.headD_cons]
  rw [parseIntOrName_natDigits N r.names hN, parseIntOrName_natDigits M r.names hM,
    mustParseInt_natDigits S]
  simp [Bind.bind, Except.bind, pure, Except.pure, throw, throwThe, Nat.or_zero]
  rfl

theorem getRange_NS (r : Bounds) (N S : Nat)
    (hN : r.names.lookup (toLowerStr (natDigits N)) = none) :
    getRange (natDigits N ++ '/' :: natDigits S) r
      = (if N < r.min then
           .error (.belowMinimum N r.min (natDigits N ++ '/' :: natDigits S))
         else if r.max < N then
           .error (.startBeyondEnd N r.max (natDigits N ++ '/' :: natDigits S))
         else if S = 0 then
           .error (.zeroStep (natDigits N ++ '/' :: natDigits S))
         else .ok (getBits N r.max S)) := by
  have hs1 : splitCh '/' (natDigits N ++ '/' :: natDigits S)
      = [natDigits N, natDigits S] := by
    rw [splitCh_append _ _ (natDigits_not_mem N '/' (by simp)),
      splitCh_of_not_mem (natDigits_not_mem S '/' (by simp))]
  have hs2 : splitCh '-' (natDigits N) = [natDigits N] :=
    splitCh_of_not_mem (natDigits_not_mem N '-' (by simp))
  unfold getRange
  rw [hs1]
  simp only [List.headD_cons]
  simp only [hs2]
  rw [if_neg (by rcases natDigits_ne_star N with ⟨h1, h2⟩; rintro (h | h) <;> simp_all)]
  simp only [List.headD_cons]
  rw [parseIntOrName_natDigits N r.names hN, mustParseInt_natDigits S]
  simp [Bind.bind, Except.bind, pure, Except.pure, throw, throwThe, Nat.or_zero]
  rfl

theorem getRange_star (r : Bounds) (hminmax : r.min ≤ r.max) :
    getRange ['*'] r = .ok (getBits r.min r.max 1 ||| starBit)
  ∧ getRange ['?'] r = .ok (getBits r.min r.max 1 ||| starBit) := by
  constructor
  · unfold getRange
    simp only [show splitCh '/' ['*'] = [['*']] from rfl, List.head?, Option.getD]
    simp [show splitCh '-' ['*'] = [['*']] from rfl, hminmax.not_lt]
    rfl
  · unfold getRange
    simp only [show splitCh '/' ['?'] = [['?']] from rfl, List.head?, Option.getD]
    simp [show splitCh '-' ['?'] = [['?']] from rfl, hminmax.not_lt]
    rfl

/-- C4: a bare `*` or `?` yields every permitted bit from the field minimum
through the field maximum plus the wildcard sentinel bit; an explicit
numeric range `N-M` never sets the sentinel, even when it spans the whole
domain (`getRange`, parser 275-341). -/
theorem claim_C4_star (r : Bounds) (h1 : r.min ≤ r.max) (h2 : r.max ≤ 62) :
    getRange ['*'] r = .ok (getBits r.min r.max 1 ||| starBit)
  ∧ getRange ['?'] r = .ok (getBits r.min r.max 1 ||| starBit)
  ∧ (∀ v, r.min ≤ v → v ≤ r.max → (getBits r.min r.max 1 ||| starBit).testBit v = true)
  ∧ (getBits r.min r.max 1 ||| starBit) &&& starBit ≠ 0
  ∧ (∀ N M b, r.names.lookup (toLowerStr (natDigits N)) = none →
      r.names.lookup (toLowerStr (natDigits M)) = none →
      getRange (natDigits N ++ '-' :: natDigits M) r = .ok b → b &&& starBit = 0) := by
  refine ⟨(getRange_star r h1).1, (getRange_star r h1).2, ?_, ?_, ?_⟩
  · intro v hv1 hv2
    rw [Nat.testBit_lor]
    have hb : (getBits r.min r.max 1).testBit v = true :=
      (getBits_testBit r.min r.max 1 le_rfl (by omega) v).mpr ⟨v - r.min, by omega, hv2⟩
    simp [hb]
  · rw [starBit_eq, Nat.and_two_pow, Nat.testBit_lor, Nat.testBit_two_pow]
    simp
  · intro N M b hN hM hok
    rw [getRange_NM r N M hN hM] at hok
    by_cases c1 : N < r.min
    · rw [if_pos c1] at hok; cases hok
    · rw [if_neg c1] at hok
      by_cases c2 : r.max < M
      · rw [if_pos c2] at hok; cases hok
      · rw [if_neg c2] at hok
        by_cases c3 : M < N
        · rw [if_pos c3] at hok; cases hok
        · rw [if_neg c3] at hok
          simp only [Except.ok.injEq] at hok
          rw [← hok]
          exact getBits_and_starBit N M 1 le_rfl (by omega)

/-- Witness for C4 on the seconds field bounds. -/
theorem claim_C4_star_witness :
    getRange ['*'] secondsB = .ok (getBits secondsB.min secondsB.max 1 ||| starBit)
  ∧ getBits 0 59 1 &&& starBit = 0 :=
  ⟨(claim_C4_star secondsB (by decide) (by decide)).1,
   (claim_C4_star secondsB (by decide) (by decide)).2.2.2.2 0 59 (getBits 0 59 1)
     rfl rfl rfl⟩

/-- C5: for well-formed numeric range expressions, `getRange` errors (with
the offending expression in the error) exactly when the start is below the
field minimum, the end is above the maximum, the start exceeds the end, or
the step is zero; otherwise it returns the bitset of start, start+step, ...
up to the end, where `N/S` means `N` through the field maximum with step
`S` (parser 275-341, 366-380). -/
theorem claim_C5_range (r : Bounds) (N M S : Nat) (hmax : r.max ≤ 62)
    (hN : r.names.lookup (toLowerStr (natDigits N)) = none)
    (hM : r.names.lookup (toLowerStr (natDigits M)) = none) :
    ((N < r.min ∨ M > r.max ∨ N > M ∨ S = 0) ↔
      (getRange (natDigits N ++ '-' :: natDigits M ++ '/' :: natDigits S) r
          = .error (.belowMinimum N r.min (natDigits N ++ '-' :: natDigits M ++ '/' :: natDigits S))
       ∨ getRange (natDigits N ++ '-' :: natDigits M ++ '/' :: natDigits S) r
          = .error (.aboveMaximum M r.max (natDigits N ++ '-' :: natDigits M ++ '/' :: natDigits S))
       ∨ getRange (natDigits N ++ '-' :: natDigits M ++ '/' :: natDigits S) r
          = .error (.startBeyondEnd N M (natDigits N ++ '-' :: natDigits M ++ '/' :: natDigits S))
       ∨ getRange (natDigits N ++ '-' :: natDigits M ++ '/' :: natDigits S) r
          = .error (.zeroStep (natDigits N ++ '-' :: natDigits M ++ '/' :: natDigits S))))
  ∧ (¬(N < r.min ∨ M > r.max ∨ N > M ∨ S = 0) →
      getRange (natDigits N ++ '-' :: natDigits M ++ '/' :: natDigits S) r
        = .ok (getBits N M S)
    ∧ (∀ j, ((getBits N M S).testBit j = true ↔ ∃ k, j = N + S * k ∧ j ≤ M)))
  ∧ ((N < r.min ∨ N > r.max ∨ S = 0) ↔
      (getRange (natDigits N ++ '/' :: natDigits S) r
          = .error (.belowMinimum N r.min (natDigits N ++ '/' :: natDigits S))
       ∨ getRange (natDigits N ++ '/' :: natDigits S) r
          = .error (.startBeyondEnd N r.max (natDigits N ++ '/' :: natDigits S))
       ∨ getRange (natDigits N ++ '/' :: natDigits S) r
          = .error (.zeroStep (natDigits N ++ '/' :: natDigits S))))
  ∧ (¬(N < r.min ∨ N > r.max ∨ S = 0) →
      getRange (natDigits N ++ '/' :: natDigits S) r = .ok (getBits N r.max S)
    ∧ (∀ j, ((getBits N r.max S).testBit j = true ↔ ∃ k, j = N + S * k ∧ j ≤ r.max))) := by
  have hE := getRange_NMS r N M S hN hM
  have hE2 := getRange_NS r N S hN
  refine ⟨?_, ?_, ?_, ?_⟩
  · rw [hE]
    split_ifs with c1 c2 c3 c4 <;> simp <;> omega
  · intro h
    push_neg at h
    obtain ⟨h1, h2, h3, h4⟩ := h
    rw [hE, if_neg (by omega), if_neg (by omega), if_neg (by omega), if_neg h4]
    exact ⟨rfl, fun j => getBits_testBit N M S (by omega) (by omega) j⟩
  · rw [hE2]
    split_ifs with c1 c2 c3 <;> simp <;> omega
  · intro h
    push_neg at h
    obtain ⟨h1, h2, h3⟩ := h
    rw [hE2, if_neg (by omega), if_neg (by omega), if_neg h3]
    exact ⟨rfl, fun j => getBits_testBit N r.max S (by omega) (by omega) j⟩

/-- Witness for C5 on the day-of-month bounds: `5-10/2` parses to the bitset
of 5, 7, 9, and `0-10/2` fails with a below-minimum error. -/
theorem claim_C5_range_witness :
    getRange (natDigits 5 ++ '-' :: natDigits 10 ++ '/' :: natDigits 2) domB
      = .ok (getBits 5 10 2)
  ∧ (getRange (natDigits 0 ++ '-' :: natDigits 10 ++ '/' :: natDigits 2) domB
        = .error (.belowMinimum 0 domB.min (natDigits 0 ++ '-' :: natDigits 10 ++ '/' :: natDigits 2))
     ∨ getRange (natDigits 0 ++ '-' :: natDigits 10 ++ '/' :: natDigits 2) domB
        = .error (.aboveMaximum 10 domB.max (natDigits 0 ++ '-' :: natDigits 10 ++ '/' :: natDigits 2))
     ∨ getRange (natDigits 0 ++ '-' :: natDigits 10 ++ '/' :: natDigits 2) domB
        = .error (.startBeyondEnd 0 10 (natDigits 0 ++ '-' :: natDigits 10 ++ '/' :: natDigits 2))
     ∨ getRange (natDigits 0 ++ '-' :: natDigits 10 ++ '/' :: natDigits 2) domB
        = .error (.zeroStep (natDigits 0 ++ '-' :: natDigits 10 ++ '/' :: natDigits 2))) :=
  ⟨((claim_C5_range domB 5 10 2 (by decide) rfl rfl).2.1 (by decide)).1,
   (claim_C5_range domB 0 10 2 (by decide) rfl rfl).1.mp (by decide)⟩

/-! ## C1: the next-activation search

Supporting calendar lemmas: month-length bounds and explicit shapes of the
single-step time advances used by the five field loops. -/

theorem daysInMonth_ge (y m : Nat) : 28 ≤ daysInMonth y m := by
  unfold daysInMonth
  split_ifs <;> omega

theorem daysInMonth_le (y m : Nat) : daysInMonth y m ≤ 31 := by
  unfold daysInMonth
  split_ifs <;> omega

theorem addMonth_first (y mo : Nat) (h1 : 1 ≤ mo) (h2 : mo ≤ 12) :
    addMonth (DT.mk y mo 1 0 0 0 0)
      = if mo = 12 then DT.mk (y + 1) 1 1 0 0 0 0 else DT.mk y (mo + 1) 1 0 0 0 0 := by
  have g1 := daysInMonth_ge (y + 1) (mo + 1 - 12)
  have g2 := daysInMonth_ge y (mo + 1)
  unfold addMonth mkDate
  simp only
  split_ifs <;> simp_all <;> omega

theorem addDay_midnight (y mo d : Nat) (h1 : 1 ≤ mo) (h2 : mo ≤ 12)
    (h3 : 1 ≤ d) (h4 : d ≤ daysInMonth y mo) :
    addDay (DT.mk y mo d 0 0 0 0)
      = if d < daysInMonth y mo then DT.mk y mo (d + 1) 0 0 0 0
        else if mo = 12 then DT.mk (y + 1) 1 1 0 0 0 0
        else DT.mk y (mo + 1) 1 0 0 0 0 := by
  have g1 := daysInMonth_ge y mo
  have g2 := daysInMonth_le y mo
  unfold addDay mkDate
  simp only
  split_ifs <;> simp_all <;> omega

theorem addHour_spec (t : DT) (h1 : 1 ≤ t.month) (h2 : t.month ≤ 12)
    (h3 : 1 ≤ t.day) (h4 : t.day ≤ daysInMonth t.year t.month) :
    addHour t
      = if t.hour < 23 then
          DT.mk t.year t.month t.day (t.hour + 1) t.minute t.second t.nsec
        else if t.day < daysInMonth t.year t.month then
          DT.mk t.year t.month (t.day + 1) 0 t.minute t.second t.nsec
        else if t.month = 12 then DT.mk (t.year + 1) 1 1 0 t.minute t.second t.nsec
        else DT.mk t.year (t.month + 1) 1 0 t.minute t.second t.nsec := by
  have g1 := daysInMonth_ge t.year t.month
  have g2 := daysInMonth_le t.year t.month
  unfold addHour mkDate
  simp only
  split_ifs <;> simp_all <;> omega

theorem addMinute_spec (t : DT) (h1 : 1 ≤ t.month) (h2 : t.month ≤ 12)
    (h3 : 1 ≤ t.day) (h4 : t.day ≤ daysInMonth t.year t.month) :
    addMinute t
      = if t.minute < 59 then
          DT.mk t.year t.month t.day t.hour (t.minute + 1) t.second t.nsec
        else if t.hour < 23 then
          DT.mk t.year t.month t.day (t.hour + 1) 0 t.second t.nsec
        else if t.day < daysInMonth t.year t.month then
          DT.mk t.year t.month (t.day + 1) 0 0 t.second t.nsec
        else if t.month = 12 then DT.mk (t.year + 1) 1 1 0 0 t.second t.nsec
        else DT.mk t.year (t.month + 1) 1 0 0 t.second t.nsec := by
  unfold addMinute
  by_cases h5 : t.minute < 59
  · simp [h5]
  · rw [if_neg h5]
    rw [addHour_spec (DT.mk t.year t.month t.day t.hour 0 t.second t.nsec) h1 h2 h3 h4]
    split_ifs <;> simp_all <;> omega

theorem addSecond_spec (t : DT) (h1 : 1 ≤ t.month) (h2 : t.month ≤ 12)
    (h3 : 1 ≤ t.day) (h4 : t.day ≤ daysInMonth t.year t.month) :
    addSecond t
      = if t.second < 59 then
          DT.mk t.year t.month t.day t.hour t.minute (t.second + 1) t.nsec
        else if t.minute < 59 then
          DT.mk t.year t.month t.day t.hour (t.minute + 1) 0 t.nsec
        else if t.hour < 23 then
          DT.mk t.year t.month t.day (t.hour + 1) 0 0 t.nsec
        else if t.day < daysInMonth t.year t.month then
          DT.mk t.year t.month (t.day + 1) 0 0 0 t.nsec
        else if t.month = 12 then DT.mk (t.year + 1) 1 1 0 0 0 t.nsec
        else DT.mk t.year (t.month + 1) 1 0 0 0 t.nsec := by
  unfold addSecond
  by_cases h5 : t.second < 59
  · simp [h5]
  · rw [if_neg h5]
    rw [addMinute_spec (DT.mk t.year t.month t.day t.hour t.minute 0 t.nsec) h1 h2 h3 h4]
    split_ifs <;> simp_all <;> omega

theorem valid_first_of_month (y m : Nat) (hy : 1 ≤ y) (h1 : 1 ≤ m) (h2 : m ≤ 12) :
    Valid (DT.mk y m 1 0 0 0 0) := by
  have := daysInMonth_ge y m
  unfold Valid
  refine ⟨?_, ?_, ?_, ?_, ?_, ?_, ?_, ?_, ?_⟩ <;> simp <;> omega

theorem pre_first (s : SpecSchedule) (a : Bool) (y m : Nat) :
    Pre s a (DT.mk y m 1 0 0 0 0) := fun _ =>
  ⟨fun _ => ⟨rfl, rfl, rfl, rfl⟩, fun _ => ⟨rfl, rfl, rfl⟩, fun _ => ⟨rfl, rfl⟩, fun _ => rfl⟩

theorem pre_midnight (s : SpecSchedule) (a : Bool) (y m d : Nat)
    (hM : monthOK s (DT.mk y m d 0 0 0 0) = true) :
    Pre s a (DT.mk y m d 0 0 0 0) := fun _ =>
  ⟨fun h => absurd hM (by simp [h]), fun _ => ⟨rfl, rfl, rfl⟩, fun _ => ⟨rfl, rfl⟩,
   fun _ => rfl⟩

theorem pre_hour (s : SpecSchedule) (a : Bool) (y m d h : Nat)
    (hM : monthOK s (DT.mk y m d h 0 0 0) = true)
    (hD : dayMatches s (DT.mk y m d h 0 0 0) = true) :
    Pre s a (DT.mk y m d h 0 0 0) := fun _ =>
  ⟨fun hc => absurd hM (by simp [hc]), fun hc => absurd hD (by simp [hc]),
   fun _ => ⟨rfl, rfl⟩, fun _ => rfl⟩

theorem pre_minute (s : SpecSchedule) (a : Bool) (y m d h mi : Nat)
    (hM : monthOK s (DT.mk y m d h mi 0 0) = true)
    (hD : dayMatches s (DT.mk y m d h mi 0 0) = true)
    (hH : hourOK s (DT.mk y m d h mi 0 0) = true) :
    Pre s a (DT.mk y m d h mi 0 0) := fun _ =>
  ⟨fun hc => absurd hM (by simp [hc]), fun hc => absurd hD (by simp [hc]),
   fun hc => absurd hH (by simp [hc]), fun _ => rfl⟩

theorem noMatch_empty (s : SpecSchedule) (a : Nat) : NoMatch s a a :=
  fun _ _ h1 h2 => absurd h2 (by omega)

theorem noMatch_concat {s : SpecSchedule} {a b c : Nat}
    (h1 : NoMatch s a b) (h2 : NoMatch s b c) : NoMatch s a c := by
  intro u hu hl hr
  by_cases h : secKey u < b
  · exact h1 u hu hl h
  · exact h2 u hu (by omega) hr

theorem dayMatches_congr (s : SpecSchedule) {u t : DT}
    (h1 : u.year = t.year) (h2 : u.month = t.month) (h3 : u.day = t.day) :
    dayMatches s u = dayMatches s t := by
  unfold dayMatches weekday dayNumber
  rw [h1, h2, h3]

/-! ### The five field-loop lemmas: each loop is fuel-sufficient, its exit
satisfies the field (and preserves the coarser fields), its wrap strictly
advances the time, and every skipped instant fails the schedule. -/

theorem secKey_mk (y m d h mi s n : Nat) :
    secKey (DT.mk y m d h mi s n)
      = ((((y * 13 + m) * 32 + d) * 24 + h) * 60 + mi) * 60 + s := rfl

theorem valid_mk (y m d h mi s n : Nat) :
    Valid (DT.mk y m d h mi s n) ↔
      (1 ≤ y ∧ 1 ≤ m ∧ m ≤ 12 ∧ 1 ≤ d ∧ d ≤ daysInMonth y m
        ∧ h ≤ 23 ∧ mi ≤ 59 ∧ s ≤ 59 ∧ n ≤ 999999999) := Iff.rfl

theorem monthLoop_spec (s : SpecSchedule) :
    ∀ (f : Nat) (a : Bool) (t : DT), Valid t → t.nsec = 0 → Pre s a t →
      14 - t.month ≤ f →
      (monthLoop s f a t ≠ .fuelOut
    ∧ (∀ a1 t1, monthLoop s f a t = .exit a1 t1 →
        Valid t1 ∧ t1.nsec = 0 ∧ monthOK s t1 = true
        ∧ secKey t ≤ secKey t1 ∧ t1.year = t.year
        ∧ NoMatch s (secKey t) (secKey t1) ∧ Pre s a1 t1)
    ∧ (∀ a1 t1, monthLoop s f a t = .wrap a1 t1 →
        Valid t1 ∧ t1.nsec = 0
        ∧ secKey t < secKey t1 ∧ t1.year ≤ t.year + 1
        ∧ NoMatch s (secKey t) (secKey t1) ∧ Pre s true t1 ∧ a1 = true)) := by
  intro f
  induction f with
  | zero =>
    intro a t hv hns hpre hf
    have h12 : t.month ≤ 12 := hv.2.2.1
    omega
  | succ f ih =>
    intro a t hv hns hpre hf
    obtain ⟨hy, hm1, hm2, hd1, hd2, hh, hmi, hs2, hn⟩ := hv
    rw [monthLoop]
    by_cases hok : monthOK s t = true
    · rw [if_pos hok]
      refine ⟨by simp, ?_, ?_⟩
      · intro a1 t1 he
        injection he with h1 h2
        subst h1; subst h2
        exact ⟨⟨hy, hm1, hm2, hd1, hd2, hh, hmi, hs2, hn⟩, hns, hok, le_rfl, by omega,
          noMatch_empty s _, hpre⟩
      · intro a1 t1 he; cases he
    · rw [if_neg hok]
      have hokf : monthOK s t = false := by revert hok; cases monthOK s t <;> simp
      have hbitf : bitTest s.Month t.month = false := by simpa [monthOK] using hokf
      have ht1 : (if !a then DT.mk t.year t.month 1 0 0 0 0 else t)
          = DT.mk t.year t.month 1 0 0 0 0 := by
        cases a
        · rfl
        · simp only [Bool.not_true, Bool.false_eq_true, if_neg, reduceIte]
          obtain ⟨hda, hha, hmia, hsa⟩ := (hpre rfl).1 hokf
          rcases t with ⟨ty, tm, td, th, tmi, ts, tn⟩
          simp_all
      simp only [ht1]
      rw [addMonth_first t.year t.month hm1 hm2]
      by_cases h12 : t.month = 12
      · rw [if_pos h12]
        rw [if_pos (show (DT.mk (t.year + 1) 1 1 0 0 0 0).month = 1 from rfl)]
        have hreg : NoMatch s (secKey t) (secKey (DT.mk (t.year + 1) 1 1 0 0 0 0)) := by
          intro u hu hl hr
          have hud31 : u.day ≤ 31 := le_trans hu.2.2.2.2.1 (daysInMonth_le _ _)
          have hum : u.month = t.month ∧ u.year = t.year := by
            rcases u with ⟨uy, um, ud, uh, umi, us, un⟩
            rcases t with ⟨ty, tm, td, th, tmi, ts, tn⟩
            rw [valid_mk] at hu
            simp only [secKey_mk] at hl hr
            simp only at hud31 ⊢
            obtain ⟨huy, hum1, hum2, hud1, hud2, huh, humi, hus, hun⟩ := hu
            simp only at hm1 hm2 h12
            constructor <;> omega
          have hbu : bitTest s.Month u.month = false := by rw [hum.1]; exact hbitf
          simp [Matches, monthOK, hbu]
        have hv2 : Valid (DT.mk (t.year + 1) 1 1 0 0 0 0) :=
          valid_first_of_month _ _ (by omega) (by omega) (by omega)
        have hkey : secKey t < secKey (DT.mk (t.year + 1) 1 1 0 0 0 0) := by
          rcases t with ⟨ty, tm, td, th, tmi, ts, tn⟩
          simp only [secKey_mk]
          simp only at hm1 hm2 h12 hd1 hd2 hh hmi hs2
          have := daysInMonth_le ty tm
          omega
        refine ⟨by simp, ?_, ?_⟩
        · intro a1 t1 he; cases he
        · intro a1 t1 he
          injection he with h1 h2
          subst h2
          exact ⟨hv2, rfl, hkey, by simp, hreg, pre_first s true _ _, h1.symm⟩
      · rw [if_neg h12]
        rw [if_neg (show ¬((DT.mk t.year (t.month + 1) 1 0 0 0 0).month = 1) from by
          simp; omega)]
        have hreg : NoMatch s (secKey t) (secKey (DT.mk t.year (t.month + 1) 1 0 0 0 0)) := by
          intro u hu hl hr
          have hud31 : u.day ≤ 31 := le_trans hu.2.2.2.2.1 (daysInMonth_le _ _)
          have hum : u.month = t.month ∧ u.year = t.year := by
            rcases u with ⟨uy, um, ud, uh, umi, us, un⟩
            rcases t with ⟨ty, tm, td, th, tmi, ts, tn⟩
            rw [valid_mk] at hu
            simp only [secKey_mk] at hl hr
            simp only at hud31 ⊢
            obtain ⟨huy, hum1, hum2, hud1, hud2, huh, humi, hus, hun⟩ := hu
            simp only at hm1 hm2 h12
            constructor <;> omega
          have hbu : bitTest s.Month u.month = false := by rw [hum.1]; exact hbitf
          simp [Matches, monthOK, hbu]
        have hv2 : Valid (DT.mk t.year (t.month + 1) 1 0 0 0 0) :=
          valid_first_of_month _ _ (by omega) (by omega) (by omega)
        have hkey : secKey t < secKey (DT.mk t.year (t.month + 1) 1 0 0 0 0) := by
          rcases t with ⟨ty, tm, td, th, tmi, ts, tn⟩
          simp only [secKey_mk]
          simp only at hm1 hm2 hd1 hd2 hh hmi hs2
          have := daysInMonth_le ty tm
          omega
        have hrec := ih true (DT.mk t.year (t.month + 1) 1 0 0 0 0) hv2 rfl
          (pre_first s true _ _) (by simp; omega)
        refine ⟨hrec.1, ?_, ?_⟩
        · intro a1 t1 he
          obtain ⟨hv1, hns1, hok1, hk1, hyr1, hnm1, hpre1⟩ := hrec.2.1 a1 t1 he
          simp only at hyr1
          exact ⟨hv1, hns1, hok1, by omega, by omega, noMatch_concat hreg hnm1, hpre1⟩
        · intro a1 t1 he
          obtain ⟨hv1, hns1, hk1, hyr1, hnm1, hpre1, ha1⟩ := hrec.2.2 a1 t1 he
          simp only at hyr1
          exact ⟨hv1, hns1, by omega, by omega, noMatch_concat hreg hnm1, hpre1, ha1⟩


theorem dayLoop_spec (s : SpecSchedule) :
    ∀ (f : Nat) (a : Bool) (t : DT), Valid t → t.nsec = 0 → Pre s a t →
      monthOK s t = true →
      33 - t.day ≤ f →
      (dayLoop s f a t ≠ .fuelOut
    ∧ (∀ a1 t1, dayLoop s f a t = .exit a1 t1 →
        Valid t1 ∧ t1.nsec = 0 ∧ dayMatches s t1 = true ∧ monthOK s t1 = true
        ∧ secKey t ≤ secKey t1 ∧ t1.year = t.year
        ∧ NoMatch s (secKey t) (secKey t1) ∧ Pre s a1 t1)
    ∧ (∀ a1 t1, dayLoop s f a t = .wrap a1 t1 →
        Valid t1 ∧ t1.nsec = 0
        ∧ secKey t < secKey t1 ∧ t1.year ≤ t.year + 1
        ∧ NoMatch s (secKey t) (secKey t1) ∧ Pre s true t1 ∧ a1 = true)) := by
  intro f
  induction f with
  | zero =>
    intro a t hv hns hpre hM hf
    have h1 : t.day ≤ daysInMonth t.year t.month := hv.2.2.2.2.1
    have h2 := daysInMonth_le t.year t.month
    omega
  | succ f ih =>
    intro a t hv hns hpre hM hf
    obtain ⟨hy, hm1, hm2, hd1, hd2, hh, hmi, hs2, hn⟩ := hv
    have hdL := daysInMonth_le t.year t.month
    rw [dayLoop]
    by_cases hok : dayMatches s t = true
    · rw [if_pos hok]
      refine ⟨by simp, ?_, ?_⟩
      · intro a1 t1 he
        injection he with h1 h2
        subst h1; subst h2
        exact ⟨⟨hy, hm1, hm2, hd1, hd2, hh, hmi, hs2, hn⟩, hns, hok, hM, le_rfl, by omega,
          noMatch_empty s _, hpre⟩
      · intro a1 t1 he; cases he
    · rw [if_neg hok]
      have hokf : dayMatches s t = false := by revert hok; cases dayMatches s t <;> simp
      have ht1 : (if !a then DT.mk t.year t.month t.day 0 0 0 0 else t)
          = DT.mk t.year t.month t.day 0 0 0 0 := by
        cases a
        · rfl
        · simp only [Bool.not_true, Bool.false_eq_true, if_neg, reduceIte]
          obtain ⟨hha, hmia, hsa⟩ := (hpre rfl).2.1 hokf
          rcases t with ⟨ty, tm, td, th, tmi, ts, tn⟩
          simp_all
      simp only [ht1]
      rw [addDay_midnight t.year t.month t.day hm1 hm2 hd1 hd2]
      -- common facts about the month bit at t
      have hbM : bitTest s.Month t.month = true := by simpa [monthOK] using hM
      by_cases hdlt : t.day < daysInMonth t.year t.month
      · rw [if_pos hdlt]
        rw [if_neg (show ¬((DT.mk t.year t.month (t.day + 1) 0 0 0 0).hour ≠ 0) from by simp)]
        rw [if_neg (show ¬((DT.mk t.year t.month (t.day + 1) 0 0 0 0).day = 1) from by
          simp; omega)]
        have hreg : NoMatch s (secKey t)
            (secKey (DT.mk t.year t.month (t.day + 1) 0 0 0 0)) := by
          intro u hu hl hr
          have hud31 : u.day ≤ 31 := le_trans hu.2.2.2.2.1 (daysInMonth_le _ _)
          rcases u with ⟨uy, um, ud, uh, umi, us, un⟩
          rcases t with ⟨ty, tm, td, th, tmi, ts, tn⟩
          rw [valid_mk] at hu
          obtain ⟨huy, hum1, hum2, hud1, hud2, huh, humi, hus, hun⟩ := hu
          simp only [secKey_mk] at hl hr
          simp only at hud31 hm1 hm2 hd1 hd2 hh hmi hs2 hdL hdlt
          have he1 : uy = ty ∧ um = tm ∧ ud = td := by
            refine ⟨by omega, by omega, by omega⟩
          obtain ⟨rfl, rfl, rfl⟩ : uy = ty ∧ um = tm ∧ ud = td := he1
          have hdm : dayMatches s (DT.mk uy um ud uh umi us un)
              = dayMatches s (DT.mk uy um ud th tmi ts tn) :=
            dayMatches_congr s rfl rfl rfl
          simp [Matches, hdm, hokf]
        have hv2 : Valid (DT.mk t.year t.month (t.day + 1) 0 0 0 0) := by
          rw [valid_mk]
          exact ⟨hy, hm1, hm2, by omega, by omega, by omega, by omega, by omega, by omega⟩
        have hM2 : monthOK s (DT.mk t.year t.month (t.day + 1) 0 0 0 0) = true := by
          simpa [monthOK] using hbM
        have hkey : secKey t < secKey (DT.mk t.year t.month (t.day + 1) 0 0 0 0) := by
          rcases t with ⟨ty, tm, td, th, tmi, ts, tn⟩
          simp only [secKey_mk]
          simp only at hh hmi hs2
          omega
        have hrec := ih true (DT.mk t.year t.month (t.day + 1) 0 0 0 0) hv2 rfl
          (pre_midnight s true _ _ _ hM2) hM2 (by simp; omega)
        refine ⟨hrec.1, ?_, ?_⟩
        · intro a1 t1 he
          obtain ⟨hv1, hns1, hok1, hokM1, hk1, hyr1, hnm1, hpre1⟩ := hrec.2.1 a1 t1 he
          simp only at hyr1
          exact ⟨hv1, hns1, hok1, hokM1, by omega, by omega, noMatch_concat hreg hnm1, hpre1⟩
        · intro a1 t1 he
          obtain ⟨hv1, hns1, hk1, hyr1, hnm1, hpre1, ha1⟩ := hrec.2.2 a1 t1 he
          simp only at hyr1
          exact ⟨hv1, hns1, by omega, by omega, noMatch_concat hreg hnm1, hpre1, ha1⟩
      · rw [if_neg hdlt]
        by_cases h12 : t.month = 12
        · rw [if_pos h12]
          rw [if_neg (show ¬((DT.mk (t.year + 1) 1 1 0 0 0 0).hour ≠ 0) from by simp)]
          rw [if_pos (show (DT.mk (t.year + 1) 1 1 0 0 0 0).day = 1 from rfl)]
          have hreg : NoMatch s (secKey t) (secKey (DT.mk (t.year + 1) 1 1 0 0 0 0)) := by
            intro u hu hl hr
            have hud31 : u.day ≤ 31 := le_trans hu.2.2.2.2.1 (daysInMonth_le _ _)
            rcases u with ⟨uy, um, ud, uh, umi, us, un⟩
            rcases t with ⟨ty, tm, td, th, tmi, ts, tn⟩
            rw [valid_mk] at hu
            obtain ⟨huy, hum1, hum2, hud1, hud2, huh, humi, hus, hun⟩ := hu
            simp only [secKey_mk] at hl hr
            simp only at hud31 hm1 hm2 hd1 hd2 hh hmi hs2 hdL hdlt h12
            obtain ⟨rfl, rfl⟩ : uy = ty ∧ um = tm := ⟨by omega, by omega⟩
            obtain rfl : ud = td := by omega
            have hdm : dayMatches s (DT.mk uy um ud uh umi us un)
                = dayMatches s (DT.mk uy um ud th tmi ts tn) :=
              dayMatches_congr s rfl rfl rfl
            simp [Matches, hdm, hokf]
          have hv2 : Valid (DT.mk (t.year + 1) 1 1 0 0 0 0) :=
            valid_first_of_month _ _ (by omega) (by omega) (by omega)
          have hkey : secKey t < secKey (DT.mk (t.year + 1) 1 1 0 0 0 0) := by
            rcases t with ⟨ty, tm, td, th, tmi, ts, tn⟩
            simp only [secKey_mk]
            simp only at hm1 hm2 hd1 hd2 hh hmi hs2 hdL
            omega
          refine ⟨by simp, ?_, ?_⟩
          · intro a1 t1 he; cases he
          · intro a1 t1 he
            injection he with h1 h2
            subst h2
            exact ⟨hv2, rfl, hkey, by simp, hreg, pre_first s true _ _, h1.symm⟩
        · rw [if_neg h12]
          rw [if_neg (show ¬((DT.mk t.year (t.month + 1) 1 0 0 0 0).hour ≠ 0) from by simp)]
          rw [if_pos (show (DT.mk t.year (t.month + 1) 1 0 0 0 0).day = 1 from rfl)]
          have hreg : NoMatch s (secKey t)
              (secKey (DT.mk t.year (t.month + 1) 1 0 0 0 0)) := by
            intro u hu hl hr
            have hud31 : u.day ≤ 31 := le_trans hu.2.2.2.2.1 (daysInMonth_le _ _)
            rcases u with ⟨uy, um, ud, uh, umi, us, un⟩
            rcases t with ⟨ty, tm, td, th, tmi, ts, tn⟩
            rw [valid_mk] at hu
            obtain ⟨huy, hum1, hum2, hud1, hud2, huh, humi, hus, hun⟩ := hu
            simp only [secKey_mk] at hl hr
            simp only at hud31 hm1 hm2 hd1 hd2 hh hmi hs2 hdL hdlt
            obtain ⟨rfl, rfl⟩ : uy = ty ∧ um = tm := ⟨by omega, by omega⟩
            obtain rfl : ud = td := by omega
            have hdm : dayMatches s (DT.mk uy um ud uh umi us un)
                = dayMatches s (DT.mk uy um ud th tmi ts tn) :=
              dayMatches_congr s rfl rfl rfl
            simp [Matches, hdm, hokf]
          have hv2 : Valid (DT.mk t.year (t.month + 1) 1 0 0 0 0) :=
            valid_first_of_month _ _ (by omega) (by omega) (by omega)
          have hkey : secKey t < secKey (DT.mk t.year (t.month + 1) 1 0 0 0 0) := by
            rcases t with ⟨ty, tm, td, th, tmi, ts, tn⟩
            simp only [secKey_mk]
            simp only at hm1 hm2 hd1 hd2 hh hmi hs2 hdL
            omega
          refine ⟨by simp, ?_, ?_⟩
          · intro a1 t1 he; cases he
          · intro a1 t1 he
            injection he with h1 h2
            subst h2
            exact ⟨hv2, rfl, hkey, by simp, hreg, pre_first s true _ _, h1.symm⟩


theorem hourLoop_spec (s : SpecSchedule) :
    ∀ (f : Nat) (a : Bool) (t : DT), Valid t → t.nsec = 0 → Pre s a t →
      monthOK s t = true → dayMatches s t = true →
      25 - t.hour ≤ f →
      (hourLoop s f a t ≠ .fuelOut
    ∧ (∀ a1 t1, hourLoop s f a t = .exit a1 t1 →
        Valid t1 ∧ t1.nsec = 0 ∧ hourOK s t1 = true ∧ dayMatches s t1 = true
        ∧ monthOK s t1 = true
        ∧ secKey t ≤ secKey t1 ∧ t1.year = t.year
        ∧ NoMatch s (secKey t) (secKey t1) ∧ Pre s a1 t1)
    ∧ (∀ a1 t1, hourLoop s f a t = .wrap a1 t1 →
        Valid t1 ∧ t1.nsec = 0
        ∧ secKey t < secKey t1 ∧ t1.year ≤ t.year + 1
        ∧ NoMatch s (secKey t) (secKey t1) ∧ Pre s true t1 ∧ a1 = true)) := by
  intro f
  induction f with
  | zero =>
    intro a t hv hns hpre hM hD hf
    have h1 : t.hour ≤ 23 := hv.2.2.2.2.2.1
    omega
  | succ f ih =>
    intro a t hv hns hpre hM hD hf
    obtain ⟨hy, hm1, hm2, hd1, hd2, hh, hmi, hs2, hn⟩ := hv
    have hdL := daysInMonth_le t.year t.month
    rw [hourLoop]
    by_cases hok : hourOK s t = true
    · rw [if_pos hok]
      refine ⟨by simp, ?_, ?_⟩
      · intro a1 t1 he
        injection he with h1 h2
        subst h1; subst h2
        exact ⟨⟨hy, hm1, hm2, hd1, hd2, hh, hmi, hs2, hn⟩, hns, hok, hD, hM, le_rfl,
          by omega, noMatch_empty s _, hpre⟩
      · intro a1 t1 he; cases he
    · rw [if_neg hok]
      have hokf : hourOK s t = false := by revert hok; cases hourOK s t <;> simp
      have hbitf : bitTest s.Hour t.hour = false := by simpa [hourOK] using hokf
      have hbM : bitTest s.Month t.month = true := by simpa [monthOK] using hM
      have ht1 : (if !a then DT.mk t.year t.month t.day t.hour 0 0 0 else t)
          = DT.mk t.year t.month t.day t.hour 0 0 0 := by
        cases a
        · rfl
        · simp only [Bool.not_true, Bool.false_eq_true, if_neg, reduceIte]
          obtain ⟨hmia, hsa⟩ := (hpre rfl).2.2.1 hokf
          rcases t with ⟨ty, tm, td, th, tmi, ts, tn⟩
          simp_all
      simp only [ht1]
      rw [addHour_spec (DT.mk t.year t.month t.day t.hour 0 0 0) hm1 hm2 hd1 hd2]
      by_cases hlt : t.hour < 23
      · rw [if_pos (show (DT.mk t.year t.month t.day t.hour 0 0 0).hour < 23 from hlt)]
        rw [if_neg (show ¬((DT.mk t.year t.month t.day (t.hour + 1) 0 0 0).hour = 0) from by
          simp)]
        have hreg : NoMatch s (secKey t)
            (secKey (DT.mk t.year t.month t.day (t.hour + 1) 0 0 0)) := by
          intro u hu hl hr
          have hud31 : u.day ≤ 31 := le_trans hu.2.2.2.2.1 (daysInMonth_le _ _)
          rcases u with ⟨uy, um, ud, uh, umi, us, un⟩
          rcases t with ⟨ty, tm, td, th, tmi, ts, tn⟩
          rw [valid_mk] at hu
          obtain ⟨huy, hum1, hum2, hud1, hud2, huh, humi, hus, hun⟩ := hu
          simp only [secKey_mk] at hl hr
          simp only at hud31 hm1 hm2 hd1 hd2 hh hmi hs2 hdL hlt hbitf
          obtain ⟨rfl, rfl, rfl, rfl⟩ : uy = ty ∧ um = tm ∧ ud = td ∧ uh = th :=
            ⟨by omega, by omega, by omega, by omega⟩
          simp [Matches, hourOK, hbitf]
        have hv2 : Valid (DT.mk t.year t.month t.day (t.hour + 1) 0 0 0) := by
          rw [valid_mk]
          exact ⟨hy, hm1, hm2, hd1, hd2, by omega, by omega, by omega, by omega⟩
        have hM2 : monthOK s (DT.mk t.year t.month t.day (t.hour + 1) 0 0 0) = true := by
          simpa [monthOK] using hbM
        have hD2 : dayMatches s (DT.mk t.year t.month t.day (t.hour + 1) 0 0 0) = true := by
          have hcongr : dayMatches s (DT.mk t.year t.month t.day (t.hour + 1) 0 0 0)
              = dayMatches s t := dayMatches_congr s rfl rfl rfl
          rw [hcongr]; exact hD
        have hkey : secKey t < secKey (DT.mk t.year t.month t.day (t.hour + 1) 0 0 0) := by
          rcases t with ⟨ty, tm, td, th, tmi, ts, tn⟩
          simp only [secKey_mk]
          simp only at hmi hs2
          omega
        have hrec := ih true (DT.mk t.year t.month t.day (t.hour + 1) 0 0 0) hv2 rfl
          (pre_hour s true _ _ _ _ hM2 hD2) hM2 hD2 (by simp; omega)
        refine ⟨hrec.1, ?_, ?_⟩
        · intro a1 t1 he
          obtain ⟨hv1, hns1, hok1, hd1x, hm1x, hk1, hyr1, hnm1, hpre1⟩ := hrec.2.1 a1 t1 he
          simp only at hyr1
          exact ⟨hv1, hns1, hok1, hd1x, hm1x, by omega, by omega,
            noMatch_concat hreg hnm1, hpre1⟩
        · intro a1 t1 he
          obtain ⟨hv1, hns1, hk1, hyr1, hnm1, hpre1, ha1⟩ := hrec.2.2 a1 t1 he
          simp only at hyr1
          exact ⟨hv1, hns1, by omega, by omega, noMatch_concat hreg hnm1, hpre1, ha1⟩
      · rw [if_neg (show ¬((DT.mk t.year t.month t.day t.hour 0 0 0).hour < 23) from hlt)]
        have h23 : t.hour = 23 := by omega
        by_cases hdlt : t.day < daysInMonth t.year t.month
        · rw [if_pos (show (DT.mk t.year t.month t.day t.hour 0 0 0).day
              < daysInMonth (DT.mk t.year t.month t.day t.hour 0 0 0).year
                  (DT.mk t.year t.month t.day t.hour 0 0 0).month from hdlt)]
          rw [if_pos (show (DT.mk t.year t.month (t.day + 1) 0 0 0 0).hour = 0 from rfl)]
          have hreg : NoMatch s (secKey t)
              (secKey (DT.mk t.year t.month (t.day + 1) 0 0 0 0)) := by
            intro u hu hl hr
            have hud31 : u.day ≤ 31 := le_trans hu.2.2.2.2.1 (daysInMonth_le _ _)
            rcases u with ⟨uy, um, ud, uh, umi, us, un⟩
            rcases t with ⟨ty, tm, td, th, tmi, ts, tn⟩
            rw [valid_mk] at hu
            obtain ⟨huy, hum1, hum2, hud1, hud2, huh, humi, hus, hun⟩ := hu
            simp only [secKey_mk] at hl hr
            simp only at hud31 hm1 hm2 hd1 hd2 hh hmi hs2 hdL hbitf h23
            obtain ⟨rfl, rfl, rfl, rfl⟩ : uy = ty ∧ um = tm ∧ ud = td ∧ uh = th :=
              ⟨by omega, by omega, by omega, by omega⟩
            simp [Matches, hourOK, hbitf]
          have hv2 : Valid (DT.mk t.year t.month (t.day + 1) 0 0 0 0) := by
            rw [valid_mk]
            exact ⟨hy, hm1, hm2, by omega, by omega, by omega, by omega, by omega, by omega⟩
          have hkey : secKey t < secKey (DT.mk t.year t.month (t.day + 1) 0 0 0 0) := by
            rcases t with ⟨ty, tm, td, th, tmi, ts, tn⟩
            simp only [secKey_mk]
            simp only at hh hmi hs2
            omega
          have hM2 : monthOK s (DT.mk t.year t.month (t.day + 1) 0 0 0 0) = true := by
            simpa [monthOK] using hbM
          refine ⟨by simp, ?_, ?_⟩
          · intro a1 t1 he; cases he
          · intro a1 t1 he
            injection he with h1 h2
            subst h2
            exact ⟨hv2, rfl, hkey, by simp, hreg, pre_midnight s true _ _ _ hM2, h1.symm⟩
        · rw [if_neg (show ¬((DT.mk t.year t.month t.day t.hour 0 0 0).day
              < daysInMonth (DT.mk t.year t.month t.day t.hour 0 0 0).year
                  (DT.mk t.year t.month t.day t.hour 0 0 0).month) from hdlt)]
          by_cases h12 : t.month = 12
          · rw [if_pos (show (DT.mk t.year t.month t.day t.hour 0 0 0).month = 12 from h12)]
            rw [if_pos (show (DT.mk (t.year + 1) 1 1 0 0 0 0).hour = 0 from rfl)]
            have hreg : NoMatch s (secKey t) (secKey (DT.mk (t.year + 1) 1 1 0 0 0 0)) := by
              intro u hu hl hr
              have hud31 : u.day ≤ 31 := le_trans hu.2.2.2.2.1 (daysInMonth_le _ _)
              rcases u with ⟨uy, um, ud, uh, umi, us, un⟩
              rcases t with ⟨ty, tm, td, th, tmi, ts, tn⟩
              rw [valid_mk] at hu
              obtain ⟨huy, hum1, hum2, hud1, hud2, huh, humi, hus, hun⟩ := hu
              simp only [secKey_mk] at hl hr
              simp only at hud31 hm1 hm2 hd1 hd2 hh hmi hs2 hdL hbitf h23 h12 hdlt
              obtain ⟨rfl, rfl⟩ : uy = ty ∧ um = tm := ⟨by omega, by omega⟩
              obtain ⟨rfl, rfl⟩ : ud = td ∧ uh = th := ⟨by omega, by omega⟩
              simp [Matches, hourOK, hbitf]
            have hv2 : Valid (DT.mk (t.year + 1) 1 1 0 0 0 0) :=
              valid_first_of_month _ _ (by omega) (by omega) (by omega)
            have hkey : secKey t < secKey (DT.mk (t.year + 1) 1 1 0 0 0 0) := by
              rcases t with ⟨ty, tm, td, th, tmi, ts, tn⟩
              simp only [secKey_mk]
              simp only at hm1 hm2 hd1 hd2 hh hmi hs2 hdL
              omega
            refine ⟨by simp, ?_, ?_⟩
            · intro a1 t1 he; cases he
            · intro a1 t1 he
              injection he with h1 h2
              subst h2
              exact ⟨hv2, rfl, hkey, by simp, hreg, pre_first s true _ _, h1.symm⟩
          · rw [if_neg (show ¬((DT.mk t.year t.month t.day t.hour 0 0 0).month = 12) from h12)]
            rw [if_pos (show (DT.mk t.year (t.month + 1) 1 0 0 0 0).hour = 0 from rfl)]
            have hreg : NoMatch s (secKey t)
                (secKey (DT.mk t.year (t.month + 1) 1 0 0 0 0)) := by
              intro u hu hl hr
              have hud31 : u.day ≤ 31 := le_trans hu.2.2.2.2.1 (daysInMonth_le _ _)
              rcases u with ⟨uy, um, ud, uh, umi, us, un⟩
              rcases t with ⟨ty, tm, td, th, tmi, ts, tn⟩
              rw [valid_mk] at hu
              obtain ⟨huy, hum1, hum2, hud1, hud2, huh, humi, hus, hun⟩ := hu
              simp only [secKey_mk] at hl hr
              simp only at hud31 hm1 hm2 hd1 hd2 hh hmi hs2 hdL hbitf h23 hdlt
              obtain ⟨rfl, rfl⟩ : uy = ty ∧ um = tm := ⟨by omega, by omega⟩
              obtain ⟨rfl, rfl⟩ : ud = td ∧ uh = th := ⟨by omega, by omega⟩
              simp [Matches, hourOK, hbitf]
            have hv2 : Valid (DT.mk t.year (t.month + 1) 1 0 0 0 0) :=
              valid_first_of_month _ _ (by omega) (by omega) (by omega)
            have hkey : secKey t < secKey (DT.mk t.year (t.month + 1) 1 0 0 0 0) := by
              rcases t with ⟨ty, tm, td, th, tmi, ts, tn⟩
              simp only [secKey_mk]
              simp only at hm1 hm2 hd1 hd2 hh hmi hs2 hdL
              omega
            refine ⟨by simp, ?_, ?_⟩
            · intro a1 t1 he; cases he
            · intro a1 t1 he
              injection he with h1 h2
              subst h2
              exact ⟨hv2, rfl, hkey, by simp, hreg, pre_first s true _ _, h1.symm⟩


theorem minuteLoop_spec (s : SpecSchedule) :
    ∀ (f : Nat) (a : Bool) (t : DT), Valid t → t.nsec = 0 → Pre s a t →
      monthOK s t = true → dayMatches s t = true → hourOK s t = true →
      61 - t.minute ≤ f →
      (minuteLoop s f a t ≠ .fuelOut
    ∧ (∀ a1 t1, minuteLoop s f a t = .exit a1 t1 →
        Valid t1 ∧ t1.nsec = 0 ∧ minuteOK s t1 = true ∧ hourOK s t1 = true
        ∧ dayMatches s t1 = true ∧ monthOK s t1 = true
        ∧ secKey t ≤ secKey t1 ∧ t1.year = t.year
        ∧ NoMatch s (secKey t) (secKey t1) ∧ Pre s a1 t1)
    ∧ (∀ a1 t1, minuteLoop s f a t = .wrap a1 t1 →
        Valid t1 ∧ t1.nsec = 0
        ∧ secKey t < secKey t1 ∧ t1.year ≤ t.year + 1
        ∧ NoMatch s (secKey t) (secKey t1) ∧ Pre s true t1 ∧ a1 = true)) := by
  intro f
  induction f with
  | zero =>
    intro a t hv hns hpre hM hD hH hf
    have h1 : t.minute ≤ 59 := hv.2.2.2.2.2.2.1
    omega
  | succ f ih =>
    intro a t hv hns hpre hM hD hH hf
    obtain ⟨hy, hm1, hm2, hd1, hd2, hh, hmi, hs2, hn⟩ := hv
    have hdL := daysInMonth_le t.year t.month
    rw [minuteLoop]
    by_cases hok : minuteOK s t = true
    · rw [if_pos hok]
      refine ⟨by simp, ?_, ?_⟩
      · intro a1 t1 he
        injection he with h1 h2
        subst h1; subst h2
        exact ⟨⟨hy, hm1, hm2, hd1, hd2, hh, hmi, hs2, hn⟩, hns, hok, hH, hD, hM, le_rfl,
          by omega, noMatch_empty s _, hpre⟩
      · intro a1 t1 he; cases he
    · rw [if_neg hok]
      have hokf : minuteOK s t = false := by revert hok; cases minuteOK s t <;> simp
      have hbitf : bitTest s.Minute t.minute = false := by simpa [minuteOK] using hokf
      have hbM : bitTest s.Month t.month = true := by simpa [monthOK] using hM
      have hbH : bitTest s.Hour t.hour = true := by simpa [hourOK] using hH
      have ht1 : (if !a then truncMinute t else t)
          = DT.mk t.year t.month t.day t.hour t.minute 0 0 := by
        cases a
        · rcases t with ⟨ty, tm, td, th, tmi, ts, tn⟩
          simp [truncMinute]
        · simp only [Bool.not_true, Bool.false_eq_true, if_neg, reduceIte]
          have hsa := (hpre rfl).2.2.2 hokf
          rcases t with ⟨ty, tm, td, th, tmi, ts, tn⟩
          simp_all
      simp only [ht1]
      rw [addMinute_spec (DT.mk t.year t.month t.day t.hour t.minute 0 0) hm1 hm2 hd1 hd2]
      by_cases hlt : t.minute < 59
      · rw [if_pos (show (DT.mk t.year t.month t.day t.hour t.minute 0 0).minute < 59 from hlt)]
        rw [if_neg (show ¬((DT.mk t.year t.month t.day t.hour (t.minute + 1) 0 0).minute = 0)
          from by simp)]
        have hreg : NoMatch s (secKey t)
            (secKey (DT.mk t.year t.month t.day t.hour (t.minute + 1) 0 0)) := by
          intro u hu hl hr
          have hud31 : u.day ≤ 31 := le_trans hu.2.2.2.2.1 (daysInMonth_le _ _)
          rcases u with ⟨uy, um, ud, uh, umi, us, un⟩
          rcases t with ⟨ty, tm, td, th, tmi, ts, tn⟩
          rw [valid_mk] at hu
          obtain ⟨huy, hum1, hum2, hud1, hud2, huh, humi, hus, hun⟩ := hu
          simp only [secKey_mk] at hl hr
          simp only at hud31 hm1 hm2 hd1 hd2 hh hmi hs2 hdL hlt hbitf
          obtain ⟨rfl, rfl, rfl, rfl, rfl⟩ :
              uy = ty ∧ um = tm ∧ ud = td ∧ uh = th ∧ umi = tmi :=
            ⟨by omega, by omega, by omega, by omega, by omega⟩
          simp [Matches, minuteOK, hbitf]
        have hv2 : Valid (DT.mk t.year t.month t.day t.hour (t.minute + 1) 0 0) := by
          rw [valid_mk]
          exact ⟨hy, hm1, hm2, hd1, hd2, hh, by omega, by omega, by omega⟩
        have hM2 : monthOK s (DT.mk t.year t.month t.day t.hour (t.minute + 1) 0 0)
            = true := by simpa [monthOK] using hbM
        have hD2 : dayMatches s (DT.mk t.year t.month t.day t.hour (t.minute + 1) 0 0)
            = true := by
          have hcongr : dayMatches s (DT.mk t.year t.month t.day t.hour (t.minute + 1) 0 0)
              = dayMatches s t := dayMatches_congr s rfl rfl rfl
          rw [hcongr]; exact hD
        have hH2 : hourOK s (DT.mk t.year t.month t.day t.hour (t.minute + 1) 0 0)
            = true := by simpa [hourOK] using hbH
        have hkey : secKey t
            < secKey (DT.mk t.year t.month t.day t.hour (t.minute + 1) 0 0) := by
          rcases t with ⟨ty, tm, td, th, tmi, ts, tn⟩
          simp only [secKey_mk]
          simp only at hs2
          omega
        have hrec := ih true (DT.mk t.year t.month t.day t.hour (t.minute + 1) 0 0) hv2 rfl
          (pre_minute s true _ _ _ _ _ hM2 hD2 hH2) hM2 hD2 hH2 (by simp; omega)
        refine ⟨hrec.1, ?_, ?_⟩
        · intro a1 t1 he
          obtain ⟨hv1, hns1, hok1, hh1x, hd1x, hm1x, hk1, hyr1, hnm1, hpre1⟩ :=
            hrec.2.1 a1 t1 he
          simp only at hyr1
          exact ⟨hv1, hns1, hok1, hh1x, hd1x, hm1x, by omega, by omega,
            noMatch_concat hreg hnm1, hpre1⟩
        · intro a1 t1 he
          obtain ⟨hv1, hns1, hk1, hyr1, hnm1, hpre1, ha1⟩ := hrec.2.2 a1 t1 he
          simp only at hyr1
          exact ⟨hv1, hns1, by omega, by omega, noMatch_concat hreg hnm1, hpre1, ha1⟩
      · rw [if_neg (show ¬((DT.mk t.year t.month t.day t.hour t.minute 0 0).minute < 59)
          from hlt)]
        have h59 : t.minute = 59 := by omega
        by_cases hlth : t.hour < 23
        · rw [if_pos (show (DT.mk t.year t.month t.day t.hour t.minute 0 0).hour < 23
            from hlth)]
          rw [if_pos (show (DT.mk t.year t.month t.day (t.hour + 1) 0 0 0).minute = 0
            from rfl)]
          have hreg : NoMatch s (secKey t)
              (secKey (DT.mk t.year t.month t.day (t.hour + 1) 0 0 0)) := by
            intro u hu hl hr
            have hud31 : u.day ≤ 31 := le_trans hu.2.2.2.2.1 (daysInMonth_le _ _)
            rcases u with ⟨uy, um, ud, uh, umi, us, un⟩
            rcases t with ⟨ty, tm, td, th, tmi, ts, tn⟩
            rw [valid_mk] at hu
            obtain ⟨huy, hum1, hum2, hud1, hud2, huh, humi, hus, hun⟩ := hu
            simp only [secKey_mk] at hl hr
            simp only at hud31 hm1 hm2 hd1 hd2 hh hmi hs2 hdL hbitf h59 hlth
            obtain ⟨rfl, rfl, rfl, rfl, rfl⟩ :
                uy = ty ∧ um = tm ∧ ud = td ∧ uh = th ∧ umi = tmi :=
              ⟨by omega, by omega, by omega, by omega, by omega⟩
            simp [Matches, minuteOK, hbitf]
          have hv2 : Valid (DT.mk t.year t.month t.day (t.hour + 1) 0 0 0) := by
            rw [valid_mk]
            exact ⟨hy, hm1, hm2, hd1, hd2, by omega, by omega, by omega, by omega⟩
          have hM2 : monthOK s (DT.mk t.year t.month t.day (t.hour + 1) 0 0 0) = true := by
            simpa [monthOK] using hbM
          have hD2 : dayMatches s (DT.mk t.year t.month t.day (t.hour + 1) 0 0 0) = true := by
            have hcongr : dayMatches s (DT.mk t.year t.month t.day (t.hour + 1) 0 0 0)
                = dayMatches s t := dayMatches_congr s rfl rfl rfl
            rw [hcongr]; exact hD
          have hkey : secKey t < secKey (DT.mk t.year t.month t.day (t.hour + 1) 0 0 0) := by
            rcases t with ⟨ty, tm, td, th, tmi, ts, tn⟩
            simp only [secKey_mk]
            simp only at hmi hs2
            omega
          refine ⟨by simp, ?_, ?_⟩
          · intro a1 t1 he; cases he
          · intro a1 t1 he
            injection he with h1 h2
            subst h2
            exact ⟨hv2, rfl, hkey, by simp, hreg, pre_hour s true _ _ _ _ hM2 hD2, h1.symm⟩
        · rw [if_neg (show ¬((DT.mk t.year t.month t.day t.hour t.minute 0 0).hour < 23)
            from hlth)]
          have h23 : t.hour = 23 := by omega
          by_cases hdlt : t.day < daysInMonth t.year t.month
          · rw [if_pos (show (DT.mk t.year t.month t.day t.hour t.minute 0 0).day
                < daysInMonth (DT.mk t.year t.month t.day t.hour t.minute 0 0).year
                    (DT.mk t.year t.month t.day t.hour t.minute 0 0).month from hdlt)]
            rw [if_pos (show (DT.mk t.year t.month (t.day + 1) 0 0 0 0).minute = 0 from rfl)]
            have hreg : NoMatch s (secKey t)
                (secKey (DT.mk t.year t.month (t.day + 1) 0 0 0 0)) := by
              intro u hu hl hr
              have hud31 : u.day ≤ 31 := le_trans hu.2.2.2.2.1 (daysInMonth_le _ _)
              rcases u with ⟨uy, um, ud, uh, umi, us, un⟩
              rcases t with ⟨ty, tm, td, th, tmi, ts, tn⟩
              rw [valid_mk] at hu
              obtain ⟨huy, hum1, hum2, hud1, hud2, huh, humi, hus, hun⟩ := hu
              simp only [secKey_mk] at hl hr
              simp only at hud31 hm1 hm2 hd1 hd2 hh hmi hs2 hdL hbitf h59 h23
              obtain ⟨rfl, rfl, rfl, rfl, rfl⟩ :
                  uy = ty ∧ um = tm ∧ ud = td ∧ uh = th ∧ umi = tmi :=
                ⟨by omega, by omega, by omega, by omega, by omega⟩
              simp [Matches, minuteOK, hbitf]
            have hv2 : Valid (DT.mk t.year t.month (t.day + 1) 0 0 0 0) := by
              rw [valid_mk]
              exact ⟨hy, hm1, hm2, by omega, by omega, by omega, by omega, by omega, by omega⟩
            have hM2 : monthOK s (DT.mk t.year t.month (t.day + 1) 0 0 0 0) = true := by
              simpa [monthOK] using hbM
            have hkey : secKey t < secKey (DT.mk t.year t.month (t.day + 1) 0 0 0 0) := by
              rcases t with ⟨ty, tm, td, th, tmi, ts, tn⟩
              simp only [secKey_mk]
              simp only at hh hmi hs2
              omega
            refine ⟨by simp, ?_, ?_⟩
            · intro a1 t1 he; cases he
            · intro a1 t1 he
              injection he with h1 h2
              subst h2
              exact ⟨hv2, rfl, hkey, by simp, hreg, pre_midnight s true _ _ _ hM2, h1.symm⟩
          · rw [if_neg (show ¬((DT.mk t.year t.month t.day t.hour t.minute 0 0).day
                < daysInMonth (DT.mk t.year t.month t.day t.hour t.minute 0 0).year
                    (DT.mk t.year t.month t.day t.hour t.minute 0 0).month) from hdlt)]
            by_cases h12 : t.month = 12
            · rw [if_pos (show (DT.mk t.year t.month t.day t.hour t.minute 0 0).month = 12
                from h12)]
              rw [if_pos (show (DT.mk (t.year + 1) 1 1 0 0 0 0).minute = 0 from rfl)]
              have hreg : NoMatch s (secKey t) (secKey (DT.mk (t.year + 1) 1 1 0 0 0 0)) := by
                intro u hu hl hr
                have hud31 : u.day ≤ 31 := le_trans hu.2.2.2.2.1 (daysInMonth_le _ _)
                rcases u with ⟨uy, um, ud, uh, umi, us, un⟩
                rcases t with ⟨ty, tm, td, th, tmi, ts, tn⟩
                rw [valid_mk] at hu
                obtain ⟨huy, hum1, hum2, hud1, hud2, huh, humi, hus, hun⟩ := hu
                simp only [secKey_mk] at hl hr
                simp only at hud31 hm1 hm2 hd1 hd2 hh hmi hs2 hdL hbitf h59 h23 h12 hdlt
                obtain ⟨rfl, rfl⟩ : uy = ty ∧ um = tm := ⟨by omega, by omega⟩
                obtain ⟨rfl, rfl, rfl⟩ : ud = td ∧ uh = th ∧ umi = tmi :=
                  ⟨by omega, by omega, by omega⟩
                simp [Matches, minuteOK, hbitf]
              have hv2 : Valid (DT.mk (t.year + 1) 1 1 0 0 0 0) :=
                valid_first_of_month _ _ (by omega) (by omega) (by omega)
              have hkey : secKey t < secKey (DT.mk (t.year + 1) 1 1 0 0 0 0) := by
                rcases t with ⟨ty, tm, td, th, tmi, ts, tn⟩
                simp only [secKey_mk]
                simp only at hm1 hm2 hd1 hd2 hh hmi hs2 hdL
                omega
              refine ⟨by simp, ?_, ?_⟩
              · intro a1 t1 he; cases he
              · intro a1 t1 he
                injection he with h1 h2
                subst h2
                exact ⟨hv2, rfl, hkey, by simp, hreg, pre_first s true _ _, h1.symm⟩
            · rw [if_neg (show ¬((DT.mk t.year t.month t.day t.hour t.minute 0 0).month = 12)
                from h12)]
              rw [if_pos (show (DT.mk t.year (t.month + 1) 1 0 0 0 0).minute = 0 from rfl)]
              have hreg : NoMatch s (secKey t)
                  (secKey (DT.mk t.year (t.month + 1) 1 0 0 0 0)) := by
                intro u hu hl hr
                have hud31 : u.day ≤ 31 := le_trans hu.2.2.2.2.1 (daysInMonth_le _ _)
                rcases u with ⟨uy, um, ud, uh, umi, us, un⟩
                rcases t with ⟨ty, tm, td, th, tmi, ts, tn⟩
                rw [valid_mk] at hu
                obtain ⟨huy, hum1, hum2, hud1, hud2, huh, humi, hus, hun⟩ := hu
                simp only [secKey_mk] at hl hr
                simp only at hud31 hm1 hm2 hd1 hd2 hh hmi hs2 hdL hbitf h59 h23 hdlt
                obtain ⟨rfl, rfl⟩ : uy = ty ∧ um = tm := ⟨by omega, by omega⟩
                obtain ⟨rfl, rfl, rfl⟩ : ud = td ∧ uh = th ∧ umi = tmi :=
                  ⟨by omega, by omega, by omega⟩
                simp [Matches, minuteOK, hbitf]
              have hv2 : Valid (DT.mk t.year (t.month + 1) 1 0 0 0 0) :=
                valid_first_of_month _ _ (by omega) (by omega) (by omega)
              have hkey : secKey t < secKey (DT.mk t.year (t.month + 1) 1 0 0 0 0) := by
                rcases t with ⟨ty, tm, td, th, tmi, ts, tn⟩
                simp only [secKey_mk]
                simp only at hm1 hm2 hd1 hd2 hh hmi hs2 hdL
                omega
              refine ⟨by simp, ?_, ?_⟩
              · intro a1 t1 he; cases he
              · intro a1 t1 he
                injection he with h1 h2
                subst h2
                exact ⟨hv2, rfl, hkey, by simp, hreg, pre_first s true _ _, h1.symm⟩


theorem secondLoop_spec (s : SpecSchedule) :
    ∀ (f : Nat) (a : Bool) (t : DT), Valid t → t.nsec = 0 → Pre s a t →
      monthOK s t = true → dayMatches s t = true → hourOK s t = true →
      minuteOK s t = true →
      61 - t.second ≤ f →
      (secondLoop s f a t ≠ .fuelOut
    ∧ (∀ a1 t1, secondLoop s f a t = .exit a1 t1 →
        Valid t1 ∧ t1.nsec = 0 ∧ Matches s t1 = true
        ∧ secKey t ≤ secKey t1 ∧ t1.year = t.year
        ∧ NoMatch s (secKey t) (secKey t1))
    ∧ (∀ a1 t1, secondLoop s f a t = .wrap a1 t1 →
        Valid t1 ∧ t1.nsec = 0
        ∧ secKey t < secKey t1 ∧ t1.year ≤ t.year + 1
        ∧ NoMatch s (secKey t) (secKey t1) ∧ Pre s true t1 ∧ a1 = true)) := by
  intro f
  induction f with
  | zero =>
    intro a t hv hns hpre hM hD hH hMi hf
    have h1 : t.second ≤ 59 := hv.2.2.2.2.2.2.2.1
    omega
  | succ f ih =>
    intro a t hv hns hpre hM hD hH hMi hf
    obtain ⟨hy, hm1, hm2, hd1, hd2, hh, hmi, hs2, hn⟩ := hv
    have hdL := daysInMonth_le t.year t.month
    rw [secondLoop]
    by_cases hok : secondOK s t = true
    · rw [if_pos hok]
      refine ⟨by simp, ?_, ?_⟩
      · intro a1 t1 he
        injection he with h1 h2
        subst h1; subst h2
        refine ⟨⟨hy, hm1, hm2, hd1, hd2, hh, hmi, hs2, hn⟩, hns, ?_, le_rfl,
          by omega, noMatch_empty s _⟩
        simp [Matches, hM, hD, hH, hMi, hok]
      · intro a1 t1 he; cases he
    · rw [if_neg hok]
      have hokf : secondOK s t = false := by revert hok; cases secondOK s t <;> simp
      have hbitf : bitTest s.Second t.second = false := by simpa [secondOK] using hokf
      have hbM : bitTest s.Month t.month = true := by simpa [monthOK] using hM
      have hbH : bitTest s.Hour t.hour = true := by simpa [hourOK] using hH
      have hbMi : bitTest s.Minute t.minute = true := by simpa [minuteOK] using hMi
      have ht1 : (if !a then truncSecond t else t)
          = DT.mk t.year t.month t.day t.hour t.minute t.second 0 := by
        cases a
        · rcases t with ⟨ty, tm, td, th, tmi, ts, tn⟩
          simp [truncSecond]
        · simp only [Bool.not_true, Bool.false_eq_true, if_neg, reduceIte]
          rcases t with ⟨ty, tm, td, th, tmi, ts, tn⟩
          simp_all
      simp only [ht1]
      rw [addSecond_spec (DT.mk t.year t.month t.day t.hour t.minute t.second 0)
        hm1 hm2 hd1 hd2]
      by_cases hlt : t.second < 59
      · rw [if_pos (show (DT.mk t.year t.month t.day t.hour t.minute t.second 0).second < 59
          from hlt)]
        rw [if_neg
          (show ¬((DT.mk t.year t.month t.day t.hour t.minute (t.second + 1) 0).second = 0)
          from by simp)]
        have hreg : NoMatch s (secKey t)
            (secKey (DT.mk t.year t.month t.day t.hour t.minute (t.second + 1) 0)) := by
          intro u hu hl hr
          have hud31 : u.day ≤ 31 := le_trans hu.2.2.2.2.1 (daysInMonth_le _ _)
          rcases u with ⟨uy, um, ud, uh, umi, us, un⟩
          rcases t with ⟨ty, tm, td, th, tmi, ts, tn⟩
          rw [valid_mk] at hu
          obtain ⟨huy, hum1, hum2, hud1, hud2, huh, humi, hus, hun⟩ := hu
          simp only [secKey_mk] at hl hr
          simp only at hud31 hm1 hm2 hd1 hd2 hh hmi hs2 hdL hlt hbitf
          obtain ⟨rfl, rfl, rfl, rfl, rfl, rfl⟩ :
              uy = ty ∧ um = tm ∧ ud = td ∧ uh = th ∧ umi = tmi ∧ us = ts :=
            ⟨by omega, by omega, by omega, by omega, by omega, by omega⟩
          simp [Matches, secondOK, hbitf]
        have hv2 : Valid (DT.mk t.year t.month t.day t.hour t.minute (t.second + 1) 0) := by
          rw [valid_mk]
          exact ⟨hy, hm1, hm2, hd1, hd2, hh, hmi, by omega, by omega⟩
        have hM2 : monthOK s (DT.mk t.year t.month t.day t.hour t.minute (t.second + 1) 0)
            = true := by simpa [monthOK] using hbM
        have hD2 : dayMatches s (DT.mk t.year t.month t.day t.hour t.minute (t.second + 1) 0)
            = true := by
          have hcongr :
              dayMatches s (DT.mk t.year t.month t.day t.hour t.minute (t.second + 1) 0)
              = dayMatches s t := dayMatches_congr s rfl rfl rfl
          rw [hcongr]; exact hD
        have hH2 : hourOK s (DT.mk t.year t.month t.day t.hour t.minute (t.second + 1) 0)
            = true := by simpa [hourOK] using hbH
        have hMi2 : minuteOK s (DT.mk t.year t.month t.day t.hour t.minute (t.second + 1) 0)
            = true := by simpa [minuteOK] using hbMi
        have hkey : secKey t
            < secKey (DT.mk t.year t.month t.day t.hour t.minute (t.second + 1) 0) := by
          rcases t with ⟨ty, tm, td, th, tmi, ts, tn⟩
          simp only [secKey_mk]
          omega
        have hpre2 : Pre s true (DT.mk t.year t.month t.day t.hour t.minute (t.second + 1) 0) := by
          intro _
          exact ⟨fun hc => absurd hM2 (by simp [hc]), fun hc => absurd hD2 (by simp [hc]),
            fun hc => absurd hH2 (by simp [hc]), fun hc => absurd hMi2 (by simp [hc])⟩
        have hrec := ih true (DT.mk t.year t.month t.day t.hour t.minute (t.second + 1) 0)
          hv2 rfl hpre2 hM2 hD2 hH2 hMi2 (by simp; omega)
        refine ⟨hrec.1, ?_, ?_⟩
        · intro a1 t1 he
          obtain ⟨hv1, hns1, hok1, hk1, hyr1, hnm1⟩ := hrec.2.1 a1 t1 he
          simp only at hyr1
          exact ⟨hv1, hns1, hok1, by omega, by omega, noMatch_concat hreg hnm1⟩
        · intro a1 t1 he
          obtain ⟨hv1, hns1, hk1, hyr1, hnm1, hpre1, ha1⟩ := hrec.2.2 a1 t1 he
          simp only at hyr1
          exact ⟨hv1, hns1, by omega, by omega, noMatch_concat hreg hnm1, hpre1, ha1⟩
      · rw [if_neg
          (show ¬((DT.mk t.year t.month t.day t.hour t.minute t.second 0).second < 59)
          from hlt)]
        have h59 : t.second = 59 := by omega
        by_cases hltm : t.minute < 59
        · rw [if_pos (show (DT.mk t.year t.month t.day t.hour t.minute t.second 0).minute < 59
            from hltm)]
          rw [if_pos
            (show (DT.mk t.year t.month t.day t.hour (t.minute + 1) 0 0).second = 0 from rfl)]
          have hreg : NoMatch s (secKey t)
              (secKey (DT.mk t.year t.month t.day t.hour (t.minute + 1) 0 0)) := by
            intro u hu hl hr
            have hud31 : u.day ≤ 31 := le_trans hu.2.2.2.2.1 (daysInMonth_le _ _)
            rcases u with ⟨uy, um, ud, uh, umi, us, un⟩
            rcases t with ⟨ty, tm, td, th, tmi, ts, tn⟩
            rw [valid_mk] at hu
            obtain ⟨huy, hum1, hum2, hud1, hud2, huh, humi, hus, hun⟩ := hu
            simp only [secKey_mk] at hl hr
            simp only at hud31 hm1 hm2 hd1 hd2 hh hmi hs2 hdL hbitf h59 hltm
            obtain ⟨rfl, rfl, rfl, rfl, rfl, rfl⟩ :
                uy = ty ∧ um = tm ∧ ud = td ∧ uh = th ∧ umi = tmi ∧ us = ts :=
              ⟨by omega, by omega, by omega, by omega, by omega, by omega⟩
            simp [Matches, secondOK, hbitf]
          have hv2 : Valid (DT.mk t.year t.month t.day t.hour (t.minute + 1) 0 0) := by
            rw [valid_mk]
            exact ⟨hy, hm1, hm2, hd1, hd2, hh, by omega, by omega, by omega⟩
          have hM2 : monthOK s (DT.mk t.year t.month t.day t.hour (t.minute + 1) 0 0)
              = true := by simpa [monthOK] using hbM
          have hD2 : dayMatches s (DT.mk t.year t.month t.day t.hour (t.minute + 1) 0 0)
              = true := by
            have hcongr : dayMatches s (DT.mk t.year t.month t.day t.hour (t.minute + 1) 0 0)
                = dayMatches s t := dayMatches_congr s rfl rfl rfl
            rw [hcongr]; exact hD
          have hH2 : hourOK s (DT.mk t.year t.month t.day t.hour (t.minute + 1) 0 0)
              = true := by simpa [hourOK] using hbH
          have hkey : secKey t
              < secKey (DT.mk t.year t.month t.day t.hour (t.minute + 1) 0 0) := by
            rcases t with ⟨ty, tm, td, th, tmi, ts, tn⟩
            simp only [secKey_mk]
            simp only at hs2
            omega
          refine ⟨by simp, ?_, ?_⟩
          · intro a1 t1 he; cases he
          · intro a1 t1 he
            injection he with h1 h2
            subst h2
            exact ⟨hv2, rfl, hkey, by simp, hreg, pre_minute s true _ _ _ _ _ hM2 hD2 hH2, h1.symm⟩
        · rw [if_neg
            (show ¬((DT.mk t.year t.month t.day t.hour t.minute t.second 0).minute < 59)
            from hltm)]
          have h59m : t.minute = 59 := by omega
          by_cases hlth : t.hour < 23
          · rw [if_pos (show (DT.mk t.year t.month t.day t.hour t.minute t.second 0).hour < 23
              from hlth)]
            rw [if_pos
              (show (DT.mk t.year t.month t.day (t.hour + 1) 0 0 0).second = 0 from rfl)]
            have hreg : NoMatch s (secKey t)
                (secKey (DT.mk t.year t.month t.day (t.hour + 1) 0 0 0)) := by
              intro u hu hl hr
              have hud31 : u.day ≤ 31 := le_trans hu.2.2.2.2.1 (daysInMonth_le _ _)
              rcases u with ⟨uy, um, ud, uh, umi, us, un⟩
              rcases t with ⟨ty, tm, td, th, tmi, ts, tn⟩
              rw [valid_mk] at hu
              obtain ⟨huy, hum1, hum2, hud1, hud2, huh, humi, hus, hun⟩ := hu
              simp only [secKey_mk] at hl hr
              simp only at hud31 hm1 hm2 hd1 hd2 hh hmi hs2 hdL hbitf h59 h59m hlth
              obtain ⟨rfl, rfl, rfl, rfl, rfl, rfl⟩ :
                  uy = ty ∧ um = tm ∧ ud = td ∧ uh = th ∧ umi = tmi ∧ us = ts :=
                ⟨by omega, by omega, by omega, by omega, by omega, by omega⟩
              simp [Matches, secondOK, hbitf]
            have hv2 : Valid (DT.mk t.year t.month t.day (t.hour + 1) 0 0 0) := by
              rw [valid_mk]
              exact ⟨hy, hm1, hm2, hd1, hd2, by omega, by omega, by omega, by omega⟩
            have hM2 : monthOK s (DT.mk t.year t.month t.day (t.hour + 1) 0 0 0) = true := by
              simpa [monthOK] using hbM
            have hD2 : dayMatches s (DT.mk t.year t.month t.day (t.hour + 1) 0 0 0)
                = true := by
              have hcongr : dayMatches s (DT.mk t.year t.month t.day (t.hour + 1) 0 0 0)
                  = dayMatches s t := dayMatches_congr s rfl rfl rfl
              rw [hcongr]; exact hD
            have hkey : secKey t < secKey (DT.mk t.year t.month t.day (t.hour + 1) 0 0 0) := by
              rcases t with ⟨ty, tm, td, th, tmi, ts, tn⟩
              simp only [secKey_mk]
              simp only at hmi hs2
              omega
            refine ⟨by simp, ?_, ?_⟩
            · intro a1 t1 he; cases he
            · intro a1 t1 he
              injection he with h1 h2
              subst h2
              exact ⟨hv2, rfl, hkey, by simp, hreg, pre_hour s true _ _ _ _ hM2 hD2, h1.symm⟩
          · rw [if_neg
              (show ¬((DT.mk t.year t.month t.day t.hour t.minute t.second 0).hour < 23)
              from hlth)]
            have h23 : t.hour = 23 := by omega
            by_cases hdlt : t.day < daysInMonth t.year t.month
            · rw [if_pos (show (DT.mk t.year t.month t.day t.hour t.minute t.second 0).day
                  < daysInMonth (DT.mk t.year t.month t.day t.hour t.minute t.second 0).year
                      (DT.mk t.year t.month t.day t.hour t.minute t.second 0).month from hdlt)]
              rw [if_pos
                (show (DT.mk t.year t.month (t.day + 1) 0 0 0 0).second = 0 from rfl)]
              have hreg : NoMatch s (secKey t)
                  (secKey (DT.mk t.year t.month (t.day + 1) 0 0 0 0)) := by
                intro u hu hl hr
                have hud31 : u.day ≤ 31 := le_trans hu.2.2.2.2.1 (daysInMonth_le _ _)
                rcases u with ⟨uy, um, ud, uh, umi, us, un⟩
                rcases t with ⟨ty, tm, td, th, tmi, ts, tn⟩
                rw [valid_mk] at hu
                obtain ⟨huy, hum1, hum2, hud1, hud2, huh, humi, hus, hun⟩ := hu
                simp only [secKey_mk] at hl hr
                simp only at hud31 hm1 hm2 hd1 hd2 hh hmi hs2 hdL hbitf h59 h59m h23
                obtain ⟨rfl, rfl, rfl, rfl, rfl, rfl⟩ :
                    uy = ty ∧ um = tm ∧ ud = td ∧ uh = th ∧ umi = tmi ∧ us = ts :=
                  ⟨by omega, by omega, by omega, by omega, by omega, by omega⟩
                simp [Matches, secondOK, hbitf]
              have hv2 : Valid (DT.mk t.year t.month (t.day + 1) 0 0 0 0) := by
                rw [valid_mk]
                exact ⟨hy, hm1, hm2, by omega, by omega, by omega, by omega, by omega,
                  by omega⟩
              have hM2 : monthOK s (DT.mk t.year t.month (t.day + 1) 0 0 0 0) = true := by
                simpa [monthOK] using hbM
              have hkey : secKey t < secKey (DT.mk t.year t.month (t.day + 1) 0 0 0 0) := by
                rcases t with ⟨ty, tm, td, th, tmi, ts, tn⟩
                simp only [secKey_mk]
                simp only at hh hmi hs2
                omega
              refine ⟨by simp, ?_, ?_⟩
              · intro a1 t1 he; cases he
              · intro a1 t1 he
                injection he with h1 h2
                subst h2
                exact ⟨hv2, rfl, hkey, by simp, hreg, pre_midnight s true _ _ _ hM2, h1.symm⟩
            · rw [if_neg (show ¬((DT.mk t.year t.month t.day t.hour t.minute t.second 0).day
                  < daysInMonth (DT.mk t.year t.month t.day t.hour t.minute t.second 0).year
                      (DT.mk t.year t.month t.day t.hour t.minute t.second 0).month)
                from hdlt)]
              by_cases h12 : t.month = 12
              · rw [if_pos
                  (show (DT.mk t.year t.month t.day t.hour t.minute t.second 0).month = 12
                  from h12)]
                rw [if_pos (show (DT.mk (t.year + 1) 1 1 0 0 0 0).second = 0 from rfl)]
                have hreg : NoMatch s (secKey t)
                    (secKey (DT.mk (t.year + 1) 1 1 0 0 0 0)) := by
                  intro u hu hl hr
                  have hud31 : u.day ≤ 31 := le_trans hu.2.2.2.2.1 (daysInMonth_le _ _)
                  rcases u with ⟨uy, um, ud, uh, umi, us, un⟩
                  rcases t with ⟨ty, tm, td, th, tmi, ts, tn⟩
                  rw [valid_mk] at hu
                  obtain ⟨huy, hum1, hum2, hud1, hud2, huh, humi, hus, hun⟩ := hu
                  simp only [secKey_mk] at hl hr
                  simp only at hud31 hm1 hm2 hd1 hd2 hh hmi hs2 hdL hbitf h59 h59m h23 h12 hdlt
                  obtain ⟨rfl, rfl⟩ : uy = ty ∧ um = tm := ⟨by omega, by omega⟩
                  obtain ⟨rfl, rfl, rfl, rfl⟩ : ud = td ∧ uh = th ∧ umi = tmi ∧ us = ts :=
                    ⟨by omega, by omega, by omega, by omega⟩
                  simp [Matches, secondOK, hbitf]
                have hv2 : Valid (DT.mk (t.year + 1) 1 1 0 0 0 0) :=
                  valid_first_of_month _ _ (by omega) (by omega) (by omega)
                have hkey : secKey t < secKey (DT.mk (t.year + 1) 1 1 0 0 0 0) := by
                  rcases t with ⟨ty, tm, td, th, tmi, ts, tn⟩
                  simp only [secKey_mk]
                  simp only at hm1 hm2 hd1 hd2 hh hmi hs2 hdL
                  omega
                refine ⟨by simp, ?_, ?_⟩
                · intro a1 t1 he; cases he
                · intro a1 t1 he
                  injection he with h1 h2
                  subst h2
                  exact ⟨hv2, rfl, hkey, by simp, hreg, pre_first s true _ _, h1.symm⟩
              · rw [if_neg
                  (show ¬((DT.mk t.year t.month t.day t.hour t.minute t.second 0).month = 12)
                  from h12)]
                rw [if_pos (show (DT.mk t.year (t.month + 1) 1 0 0 0 0).second = 0 from rfl)]
                have hreg : NoMatch s (secKey t)
                    (secKey (DT.mk t.year (t.month + 1) 1 0 0 0 0)) := by
                  intro u hu hl hr
                  have hud31 : u.day ≤ 31 := le_trans hu.2.2.2.2.1 (daysInMonth_le _ _)
                  rcases u with ⟨uy, um, ud, uh, umi, us, un⟩
                  rcases t with ⟨ty, tm, td, th, tmi, ts, tn⟩
                  rw [valid_mk] at hu
                  obtain ⟨huy, hum1, hum2, hud1, hud2, huh, humi, hus, hun⟩ := hu
                  simp only [secKey_mk] at hl hr
                  simp only at hud31 hm1 hm2 hd1 hd2 hh hmi hs2 hdL hbitf h59 h59m h23 hdlt
                  obtain ⟨rfl, rfl⟩ : uy = ty ∧ um = tm := ⟨by omega, by omega⟩
                  obtain ⟨rfl, rfl, rfl, rfl⟩ : ud = td ∧ uh = th ∧ umi = tmi ∧ us = ts :=
                    ⟨by omega, by omega, by omega, by omega⟩
                  simp [Matches, secondOK, hbitf]
                have hv2 : Valid (DT.mk t.year (t.month + 1) 1 0 0 0 0) :=
                  valid_first_of_month _ _ (by omega) (by omega) (by omega)
                have hkey : secKey t < secKey (DT.mk t.year (t.month + 1) 1 0 0 0 0) := by
                  rcases t with ⟨ty, tm, td, th, tmi, ts, tn⟩
                  simp only [secKey_mk]
                  simp only at hm1 hm2 hd1 hd2 hh hmi hs2 hdL
                  omega
                refine ⟨by simp, ?_, ?_⟩
                · intro a1 t1 he; cases he
                · intro a1 t1 he
                  injection he with h1 h2
                  subst h2
                  exact ⟨hv2, rfl, hkey, by simp, hreg, pre_first s true _ _, h1.symm⟩


/-! ## C1: soundness and completeness of SpecSchedule.Next -/

/-- Chronological order of valid date-times is reflected in the year field. -/
theorem year_mono {t u : DT} (ht : Valid t) (hu : Valid u)
    (h : secKey t ≤ secKey u) : t.year ≤ u.year := by
  rcases t with ⟨ty, tm, td, th, tmi, ts, tn⟩
  rcases u with ⟨uy, um, ud, uh, umi, us, un⟩
  rw [valid_mk] at ht hu
  have h1 := daysInMonth_le ty tm
  have h2 := daysInMonth_le uy um
  simp only [secKey_mk] at h
  show ty ≤ uy
  omega

/-- The rounding step at the top of `SpecSchedule.Next` (cron.go line 430):
it lands on the start of the next whole second, stays valid, moves the year
by at most one, and is the least valid instant whose whole-second key
strictly exceeds the input's. -/
theorem roundUp_spec (t : DT) (hv : Valid t) :
    Valid (roundUpSecond t) ∧ (roundUpSecond t).nsec = 0
    ∧ secKey t < secKey (roundUpSecond t)
    ∧ t.year ≤ (roundUpSecond t).year ∧ (roundUpSecond t).year ≤ t.year + 1
    ∧ (∀ u, Valid u → secKey t < secKey u →
        secKey (roundUpSecond t) ≤ secKey u) := by
  rcases t with ⟨ty, tm, td, th, tmi, ts, tn⟩
  rw [valid_mk] at hv
  obtain ⟨hy, hm1, hm2, hd1, hd2, hh, hmi2, hs2, hn⟩ := hv
  have hdge := daysInMonth_ge ty tm
  have hdle := daysInMonth_le ty tm
  have hrw : roundUpSecond (DT.mk ty tm td th tmi ts tn)
      = addSecond (DT.mk ty tm td th tmi ts 0) := rfl
  rw [hrw, addSecond_spec (DT.mk ty tm td th tmi ts 0) hm1 hm2 hd1 hd2]
  dsimp only
  split_ifs with hb1 hb2 hb3 hb4 hb5
  · have hb1' : ts < 59 := hb1
    refine ⟨?_, rfl, ?_, Nat.le_refl ty, Nat.le_succ ty, ?_⟩
    · rw [valid_mk]; omega
    · simp only [secKey_mk]; omega
    · intro u hu hlt
      rcases u with ⟨uy, um, ud, uh, umi, us, un⟩
      rw [valid_mk] at hu
      obtain ⟨buy, bum1, bum2, bud1, bud2, buh, bumi, bus, bun⟩ := hu
      have hule := daysInMonth_le uy um
      simp only [secKey_mk] at hlt ⊢
      omega
  · have hb1' : ¬ ts < 59 := hb1
    have hb2' : tmi < 59 := hb2
    refine ⟨?_, rfl, ?_, Nat.le_refl ty, Nat.le_succ ty, ?_⟩
    · rw [valid_mk]; omega
    · simp only [secKey_mk]; omega
    · intro u hu hlt
      rcases u with ⟨uy, um, ud, uh, umi, us, un⟩
      rw [valid_mk] at hu
      obtain ⟨buy, bum1, bum2, bud1, bud2, buh, bumi, bus, bun⟩ := hu
      have hule := daysInMonth_le uy um
      simp only [secKey_mk] at hlt ⊢
      omega
  · have hb1' : ¬ ts < 59 := hb1
    have hb2' : ¬ tmi < 59 := hb2
    have hb3' : th < 23 := hb3
    refine ⟨?_, rfl, ?_, Nat.le_refl ty, Nat.le_succ ty, ?_⟩
    · rw [valid_mk]; omega
    · simp only [secKey_mk]; omega
    · intro u hu hlt
      rcases u with ⟨uy, um, ud, uh, umi, us, un⟩
      rw [valid_mk] at hu
      obtain ⟨buy, bum1, bum2, bud1, bud2, buh, bumi, bus, bun⟩ := hu
      have hule := daysInMonth_le uy um
      simp only [secKey_mk] at hlt ⊢
      omega
  · have hb1' : ¬ ts < 59 := hb1
    have hb2' : ¬ tmi < 59 := hb2
    have hb3' : ¬ th < 23 := hb3
    have hb4' : td < daysInMonth ty tm := hb4
    refine ⟨?_, rfl, ?_, Nat.le_refl ty, Nat.le_succ ty, ?_⟩
    · rw [valid_mk]; omega
    · simp only [secKey_mk]; omega
    · intro u hu hlt
      rcases u with ⟨uy, um, ud, uh, umi, us, un⟩
      rw [valid_mk] at hu
      obtain ⟨buy, bum1, bum2, bud1, bud2, buh, bumi, bus, bun⟩ := hu
      have hule := daysInMonth_le uy um
      simp only [secKey_mk] at hlt ⊢
      omega
  · have hb1' : ¬ ts < 59 := hb1
    have hb2' : ¬ tmi < 59 := hb2
    have hb3' : ¬ th < 23 := hb3
    have hb4' : ¬ td < daysInMonth ty tm := hb4
    have hb5' : tm = 12 := hb5
    subst hb5'
    have hd12 : daysInMonth ty 12 = 31 := rfl
    have hg1 := daysInMonth_ge (ty + 1) 1
    refine ⟨?_, rfl, ?_, Nat.le_succ ty, Nat.le_refl (ty + 1), ?_⟩
    · rw [valid_mk]; omega
    · simp only [secKey_mk]; omega
    · intro u hu hlt
      rcases u with ⟨uy, um, ud, uh, umi, us, un⟩
      rw [valid_mk] at hu
      obtain ⟨buy, bum1, bum2, bud1, bud2, buh, bumi, bus, bun⟩ := hu
      have hule := daysInMonth_le uy um
      simp only [secKey_mk] at hlt ⊢
      omega
  · have hb1' : ¬ ts < 59 := hb1
    have hb2' : ¬ tmi < 59 := hb2
    have hb3' : ¬ th < 23 := hb3
    have hb4' : ¬ td < daysInMonth ty tm := hb4
    have hb5' : ¬ tm = 12 := hb5
    have hg1 := daysInMonth_ge ty (tm + 1)
    refine ⟨?_, rfl, ?_, Nat.le_refl ty, Nat.le_succ ty, ?_⟩
    · rw [valid_mk]; omega
    · simp only [secKey_mk]; omega
    · intro u hu hlt
      rcases u with ⟨uy, um, ud, uh, umi, us, un⟩
      rw [valid_mk] at hu
      obtain ⟨buy, bum1, bum2, bud1, bud2, buh, bumi, bus, bun⟩ := hu
      have hule := daysInMonth_le uy um
      by_cases hcu : uy = ty ∧ um = tm
      · obtain ⟨rfl, rfl⟩ := hcu
        simp only [secKey_mk] at hlt ⊢
        omega
      · simp only [secKey_mk] at hlt ⊢
        omega

/-- Soundness, completeness and fuel sufficiency of the WRAP recursion of
`SpecSchedule.Next`: a `found` result matches the schedule and no skipped
instant does; a `noTime` result means no valid instant from the start time
up to the year limit matches; and with enough fuel the recursion never
runs out. -/
theorem nextRec_spec (s : SpecSchedule) (yL : Nat) :
    ∀ (f : Nat) (a : Bool) (t : DT), Valid t → t.nsec = 0 → Pre s a t →
      ((∀ u, nextRec s yL f a t = .found u →
          Valid u ∧ secKey t ≤ secKey u ∧ Matches s u = true
          ∧ NoMatch s (secKey t) (secKey u))
    ∧ (nextRec s yL f a t = .noTime →
        ∀ u, Valid u → secKey t ≤ secKey u → u.year ≤ yL → Matches s u = false)
    ∧ (secKey (DT.mk (yL + 2) 1 1 0 0 0 0) ≤ secKey t + f → t.year ≤ yL + 1 →
        nextRec s yL f a t ≠ .fuelOut)) := by
  intro f
  induction f with
  | zero =>
    intro a t hv hns hpre
    refine ⟨?_, ?_, ?_⟩
    · intro u h
      exact absurd h (by simp [nextRec])
    · intro h
      exact absurd h (by simp [nextRec])
    · intro hb hy2 _
      rcases t with ⟨ty, tm, td, th, tmi, ts, tn⟩
      rw [valid_mk] at hv
      have hdle := daysInMonth_le ty tm
      have hy2' : ty ≤ yL + 1 := hy2
      simp only [secKey_mk] at hb
      omega
  | succ f ih =>
    intro a t hv hns hpre
    rw [nextRec]
    by_cases hyr : t.year > yL
    · rw [if_pos hyr]
      refine ⟨?_, ?_, ?_⟩
      · intro u h; cases h
      · intro _ u hu hk hyu
        have h2 := year_mono hv hu hk
        exact absurd hyu (by omega)
      · intro _ _ h; cases h
    · rw [if_neg hyr]
      have hm := monthLoop_spec s 13 a t hv hns hpre (by have := hv.2.1; omega)
      rcases hmr : monthLoop s 13 a t with ⟨a1, t1⟩ | ⟨a1, t1⟩ | _
      · obtain ⟨hv1, hns1, hM1, hk1, hyE1, hnm1, hpre1⟩ := hm.2.1 a1 t1 hmr
        simp only [hmr]
        have hd := dayLoop_spec s 40 a1 t1 hv1 hns1 hpre1 hM1 (by omega)
        rcases hdr : dayLoop s 40 a1 t1 with ⟨a2, t2⟩ | ⟨a2, t2⟩ | _
        · obtain ⟨hv2, hns2, hD2, hM2, hk2, hyE2, hnm2, hpre2⟩ := hd.2.1 a2 t2 hdr
          simp only [hdr]
          have hho := hourLoop_spec s 25 a2 t2 hv2 hns2 hpre2 hM2 hD2 (by omega)
          rcases hhr : hourLoop s 25 a2 t2 with ⟨a3, t3⟩ | ⟨a3, t3⟩ | _
          · obtain ⟨hv3, hns3, hH3, hD3, hM3, hk3, hyE3, hnm3, hpre3⟩ := hho.2.1 a3 t3 hhr
            simp only [hhr]
            have hmin := minuteLoop_spec s 61 a3 t3 hv3 hns3 hpre3 hM3 hD3 hH3 (by omega)
            rcases hmir : minuteLoop s 61 a3 t3 with ⟨a4, t4⟩ | ⟨a4, t4⟩ | _
            · obtain ⟨hv4, hns4, hMi4, hH4, hD4, hM4, hk4, hyE4, hnm4, hpre4⟩ :=
                hmin.2.1 a4 t4 hmir
              simp only [hmir]
              have hse := secondLoop_spec s 61 a4 t4 hv4 hns4 hpre4 hM4 hD4 hH4 hMi4 (by omega)
              rcases hser : secondLoop s 61 a4 t4 with ⟨a5, t5⟩ | ⟨a5, t5⟩ | _
              · obtain ⟨hv5, hns5, hMat5, hk5, hyE5, hnm5⟩ := hse.2.1 a5 t5 hser
                simp only [hser]
                refine ⟨?_, ?_, ?_⟩
                · intro u hfound
                  injection hfound with hEq
                  subst hEq
                  exact ⟨hv5, by omega, hMat5,
                    noMatch_concat hnm1 (noMatch_concat hnm2 (noMatch_concat hnm3
                      (noMatch_concat hnm4 hnm5)))⟩
                · intro hcon; cases hcon
                · intro _ _ hcon; cases hcon
              · obtain ⟨hv5, hns5, hk5, hyr5, hnm5, hpre5, ha5⟩ := hse.2.2 a5 t5 hser
                subst ha5
                simp only [hser]
                have hrec := ih true t5 hv5 hns5 hpre5
                refine ⟨?_, ?_, ?_⟩
                · intro u hfound
                  obtain ⟨hvu, hku, hmu, hnmu⟩ := hrec.1 u hfound
                  exact ⟨hvu, by omega, hmu,
                    noMatch_concat hnm1 (noMatch_concat hnm2 (noMatch_concat hnm3
                      (noMatch_concat hnm4 (noMatch_concat hnm5 hnmu))))⟩
                · intro hnone u hu hk hyu
                  by_cases hc1 : secKey u < secKey t1
                  · exact hnm1 u hu hk hc1
                  · by_cases hc2 : secKey u < secKey t2
                    · exact hnm2 u hu (by omega) hc2
                    · by_cases hc3 : secKey u < secKey t3
                      · exact hnm3 u hu (by omega) hc3
                      · by_cases hc4 : secKey u < secKey t4
                        · exact hnm4 u hu (by omega) hc4
                        · by_cases hc5 : secKey u < secKey t5
                          · exact hnm5 u hu (by omega) hc5
                          · exact hrec.2.1 hnone u hu (by omega) hyu
                · intro hb hy2
                  exact hrec.2.2 (by omega) (by omega)
              · exact absurd hser hse.1
            · obtain ⟨hv4, hns4, hk4, hyr4, hnm4, hpre4, ha4⟩ := hmin.2.2 a4 t4 hmir
              subst ha4
              simp only [hmir]
              have hrec := ih true t4 hv4 hns4 hpre4
              refine ⟨?_, ?_, ?_⟩
              · intro u hfound
                obtain ⟨hvu, hku, hmu, hnmu⟩ := hrec.1 u hfound
                exact ⟨hvu, by omega, hmu,
                  noMatch_concat hnm1 (noMatch_concat hnm2 (noMatch_concat hnm3
                    (noMatch_concat hnm4 hnmu)))⟩
              · intro hnone u hu hk hyu
                by_cases hc1 : secKey u < secKey t1
                · exact hnm1 u hu hk hc1
                · by_cases hc2 : secKey u < secKey t2
                  · exact hnm2 u hu (by omega) hc2
                  · by_cases hc3 : secKey u < secKey t3
                    · exact hnm3 u hu (by omega) hc3
                    · by_cases hc4 : secKey u < secKey t4
                      · exact hnm4 u hu (by omega) hc4
                      · exact hrec.2.1 hnone u hu (by omega) hyu
              · intro hb hy2
                exact hrec.2.2 (by omega) (by omega)
            · exact absurd hmir hmin.1
          · obtain ⟨hv3, hns3, hk3, hyr3, hnm3, hpre3, ha3⟩ := hho.2.2 a3 t3 hhr
            subst ha3
            simp only [hhr]
            have hrec := ih true t3 hv3 hns3 hpre3
            refine ⟨?_, ?_, ?_⟩
            · intro u hfound
              obtain ⟨hvu, hku, hmu, hnmu⟩ := hrec.1 u hfound
              exact ⟨hvu, by omega, hmu,
                noMatch_concat hnm1 (noMatch_concat hnm2 (noMatch_concat hnm3 hnmu))⟩
            · intro hnone u hu hk hyu
              by_cases hc1 : secKey u < secKey t1
              · exact hnm1 u hu hk hc1
              · by_cases hc2 : secKey u < secKey t2
                · exact hnm2 u hu (by omega) hc2
                · by_cases hc3 : secKey u < secKey t3
                  · exact hnm3 u hu (by omega) hc3
                  · exact hrec.2.1 hnone u hu (by omega) hyu
            · intro hb hy2
              exact hrec.2.2 (by omega) (by omega)
          · exact absurd hhr hho.1
        · obtain ⟨hv2, hns2, hk2, hyr2, hnm2, hpre2, ha2⟩ := hd.2.2 a2 t2 hdr
          subst ha2
          simp only [hdr]
          have hrec := ih true t2 hv2 hns2 hpre2
          refine ⟨?_, ?_, ?_⟩
          · intro u hfound
            obtain ⟨hvu, hku, hmu, hnmu⟩ := hrec.1 u hfound
            exact ⟨hvu, by omega, hmu, noMatch_concat hnm1 (noMatch_concat hnm2 hnmu)⟩
          · intro hnone u hu hk hyu
            by_cases hc1 : secKey u < secKey t1
            · exact hnm1 u hu hk hc1
            · by_cases hc2 : secKey u < secKey t2
              · exact hnm2 u hu (by omega) hc2
              · exact hrec.2.1 hnone u hu (by omega) hyu
          · intro hb hy2
            exact hrec.2.2 (by omega) (by omega)
        · exact absurd hdr hd.1
      · obtain ⟨hv1, hns1, hk1, hyr1, hnm1, hpre1, ha1⟩ := hm.2.2 a1 t1 hmr
        subst ha1
        simp only [hmr]
        have hrec := ih true t1 hv1 hns1 hpre1
        refine ⟨?_, ?_, ?_⟩
        · intro u hfound
          obtain ⟨hvu, hku, hmu, hnmu⟩ := hrec.1 u hfound
          exact ⟨hvu, by omega, hmu, noMatch_concat hnm1 hnmu⟩
        · intro hnone u hu hk hyu
          by_cases hc1 : secKey u < secKey t1
          · exact hnm1 u hu hk hc1
          · exact hrec.2.1 hnone u hu (by omega) hyu
        · intro hb hy2
          exact hrec.2.2 (by omega) (by omega)
      · exact absurd hmr hm.1

/-- C1 (amended): for every schedule and valid instant `t`, `SpecSchedule.next`
either returns an instant strictly after `t` (at nanosecond resolution) that
satisfies the month, hour, minute and second bitsets and the combined
day-of-month/day-of-week predicate (`Matches`), or returns the zero time, in
which case no whole-second instant strictly after `t` with year at most
`t.year + 5` satisfies the schedule. The original claim's phrase "satisfies
all six field bitsets" is too strong: with explicit values in both day
fields they combine by OR, so the returned instant can leave the day-of-week
bitset unsatisfied (see the counterexample below). -/
theorem claim_C1_next (s : SpecSchedule) (t : DT) (hv : Valid t) :
    (∀ u, SpecSchedule.next s t = some u →
        Valid u ∧ nsKey t < nsKey u ∧ Matches s u = true)
  ∧ (SpecSchedule.next s t = none →
      ∀ u, Valid u → u.nsec = 0 → nsKey t < nsKey u → u.year ≤ t.year + 5 →
        Matches s u = false) := by
  obtain ⟨hv1, hns1, hklt, hy1, hy2, hsucc⟩ := roundUp_spec t hv
  have hpre1 : Pre s false (roundUpSecond t) := by intro h; cases h
  have hmain := nextRec_spec s ((roundUpSecond t).year + 5)
    (nextFuel ((roundUpSecond t).year + 5) (roundUpSecond t)) false (roundUpSecond t)
    hv1 hns1 hpre1
  have htn : t.nsec ≤ 999999999 := hv.2.2.2.2.2.2.2.2
  constructor
  · intro u hu
    simp only [SpecSchedule.next] at hu
    rcases hres : nextRec s ((roundUpSecond t).year + 5)
        (nextFuel ((roundUpSecond t).year + 5) (roundUpSecond t)) false (roundUpSecond t)
      with u2 | _ | _
    · rw [hres] at hu
      obtain ⟨hvu, hku, hmu, hnmu⟩ := hmain.1 u2 hres
      injection hu with hEq
      subst hEq
      refine ⟨hvu, ?_, hmu⟩
      unfold nsKey
      omega
    · rw [hres] at hu; cases hu
    · rw [hres] at hu; cases hu
  · intro hnone u hu hns0 hkey hyear
    simp only [SpecSchedule.next] at hnone
    rcases hres : nextRec s ((roundUpSecond t).year + 5)
        (nextFuel ((roundUpSecond t).year + 5) (roundUpSecond t)) false (roundUpSecond t)
      with u2 | _ | _
    · rw [hres] at hnone; cases hnone
    · have hku : secKey t < secKey u := by
        unfold nsKey at hkey
        omega
      exact hmain.2.1 hres u hu (hsucc u hu hku) (by omega)
    · exact absurd hres (hmain.2.2 (by unfold nextFuel; omega) (by omega))

/-- C1 counterexample to the literal claim: with `Dom = {1}` and `Dow = {3}`
(and no wildcard sentinel in either), `Next` from 2024-01-31 10:00:00 returns
2024-02-01 00:00:00, whose weekday 4 (Thursday) is not in the day-of-week
bitset: the result does not satisfy all six field bitsets, only the
day-of-month half of the OR. -/
theorem claim_C1_next_counterexample :
    SpecSchedule.next ⟨1, 1, 1, 2, 8190, 8⟩ ⟨2024, 1, 31, 10, 0, 0, 0⟩
        = some ⟨2024, 2, 1, 0, 0, 0, 0⟩
      ∧ bitTest (SpecSchedule.mk 1 1 1 2 8190 8).Dow (weekday ⟨2024, 2, 1, 0, 0, 0, 0⟩)
          = false :=
  ⟨by decide, by decide⟩

/-- C1 witness: the amended theorem applied at a concrete schedule, with the
validity hypothesis discharged by evaluation. -/
theorem claim_C1_next_witness :
    Valid (DT.mk 2024 1 31 10 0 0 500)
    ∧ ((∀ u, SpecSchedule.next ⟨1, 1, 1, 2, 8190, 8⟩ (DT.mk 2024 1 31 10 0 0 500) = some u →
          Valid u ∧ nsKey (DT.mk 2024 1 31 10 0 0 500) < nsKey u
          ∧ Matches ⟨1, 1, 1, 2, 8190, 8⟩ u = true)
      ∧ (SpecSchedule.next ⟨1, 1, 1, 2, 8190, 8⟩ (DT.mk 2024 1 31 10 0 0 500) = none →
          ∀ u, Valid u → u.nsec = 0 →
            nsKey (DT.mk 2024 1 31 10 0 0 500) < nsKey u →
            u.year ≤ (DT.mk 2024 1 31 10 0 0 500).year + 5 →
            Matches ⟨1, 1, 1, 2, 8190, 8⟩ u = false)) :=
  ⟨by decide, claim_C1_next ⟨1, 1, 1, 2, 8190, 8⟩ (DT.mk 2024 1 31 10 0 0 500)
    (by decide)⟩


end Cron
